import Mathlib

/-!
Shallow embedding of the GOAT catalog-analysis core: the record extractor,
category aggregation counters, attribute signal scorer, auto-group selector,
hierarchy path resolution and the category knowledge store, translated from
the Python sources (core/dataset_understanding.py, scripts/build_category_context.py,
scripts/build_category_context_dir_v2.py, scripts/build_ai_jobs_categories_auto.py,
DEMO/stepxml/staging.py, DEMO/stepxml/extract_products.py).

Modelling conventions: Python dicts that preserve insertion order are
association lists with unique keys; Python sets are lists used only through
membership; numeric values are exact rationals; the stable Timsort behind
list.sort and Counter.most_common is a stable insertion sort over the same
boolean key comparison.
-/

/-- ASCII whitespace, the characters relevant to the regex class backslash-s
and to str.strip on this pipeline's catalog data. -/
def isWs (c : Char) : Bool :=
  c == ' ' || c == '\t' || c == '\n' || c == '\r' || c == '\x0b' || c == '\x0c'

/-- The substitution step of _norm_ws (re.sub collapsing every maximal
whitespace run into a single space).  At each whitespace character we emit
a space only when the run ends, so a run contributes one space. -/
def collapseWs : List Char → List Char
  | [] => []
  | c :: cs =>
    if isWs c then
      match cs with
      | [] => [' ']
      | d :: _ => if isWs d then collapseWs cs else ' ' :: collapseWs cs
    else c :: collapseWs cs

/-- Python str.strip on a character list: whitespace removed at both ends. -/
def stripL (l : List Char) : List Char :=
  (l.dropWhile isWs).rdropWhile isWs

/-- Function _norm_ws of core/dataset_understanding.py (identical to
norm_ws of DEMO/core/utils.py): collapse whitespace runs, then strip. -/
def normWsL (l : List Char) : List Char :=
  stripL (collapseWs l)

/-- String version of _norm_ws. -/
def normWs (s : String) : String := ⟨normWsL s.data⟩

/-- Python str.strip on a string. -/
def stripStr (s : String) : String := ⟨stripL s.data⟩

/-- Stable insertion of one element: x goes in front of the first element y
with le x y, so ties keep their original relative order.  This models the
stability contract of Python's sort. -/
def insertSorted {α : Type} (le : α → α → Bool) (x : α) : List α → List α
  | [] => [x]
  | y :: ys => if le x y then x :: y :: ys else y :: insertSorted le x ys

/-- Stable sort with respect to a boolean comparison: the unique output of
any stable sorting algorithm (such as the Timsort behind list.sort and
sorted) for a total transitive comparison. -/
def stableSortBy {α : Type} (le : α → α → Bool) (l : List α) : List α :=
  l.foldr (insertSorted le) []

/-! Minimal model of an ElementTree element as the extractors see it: a tag
(already reduced to its local name), an attribute dictionary, optional text
content and a list of children. -/

inductive XElem : Type where
  | node : String → List (String × String) → Option String → List XElem → XElem

def XElem.tag : XElem → String
  | .node t _ _ _ => t

def XElem.attrs : XElem → List (String × String)
  | .node _ a _ _ => a

def XElem.text : XElem → Option String
  | .node _ _ tx _ => tx

def XElem.children : XElem → List XElem
  | .node _ _ _ cs => cs

/-- Model of elem.attrib.get(k) / elem.get(k). -/
def XElem.attr (e : XElem) (k : String) : Option String :=
  e.attrs.lookup k

/-- Model of Element.find(t): the first direct child with the given tag. -/
def XElem.findChild (e : XElem) (t : String) : Option XElem :=
  e.children.find? (fun c => c.tag == t)

/-- Model of Element.findall(t): all direct children with the given tag. -/
def XElem.findAll (e : XElem) (t : String) : List XElem :=
  e.children.filter (fun c => c.tag == t)

/-- The canonical golden-record designation of the catalog export. -/
def goldenRecordTag : String := "PMDM.PRD.GoldenRecord"

/-- The acceptance test of _iter_products in core/dataset_understanding.py:
a Product element is skipped only when its UserTypeID attribute is present,
non-empty and different from the golden-record designation; nodes with a
missing or empty UserTypeID are accepted and yielded. -/
def du_iter_accepts (e : XElem) : Bool :=
  e.tag == "Product" &&
    (match e.attr "UserTypeID" with
     | none => true
     | some ut => ut == "" || ut == goldenRecordTag)

/-- The acceptance test of iter_products in scripts/build_category_context.py:
the UserTypeID attribute (defaulted to the empty string) is stripped and must
equal the golden-record designation exactly. -/
def scripts_iter_accepts (e : XElem) : Bool :=
  e.tag == "Product" &&
    stripStr ((e.attr "UserTypeID").getD "") == goldenRecordTag

/-- The generator _iter_products over a document modelled as the list of its
elements in document order: exactly the accepted elements are yielded. -/
def du_iter_products (es : List XElem) : List XElem :=
  es.filter du_iter_accepts

/-- The generator iter_products of scripts/build_category_context.py. -/
def scripts_iter_products (es : List XElem) : List XElem :=
  es.filter scripts_iter_accepts

/-- Append a value under an attribute id, out.setdefault(aid, []).append(t):
insertion order of keys is preserved and values accumulate in order. -/
def valuesAdd (m : List (String × List String)) (aid : String) (t : String) :
    List (String × List String) :=
  if m.any (fun p => p.1 == aid) then
    m.map (fun p => if p.1 == aid then (p.1, p.2 ++ [t]) else p)
  else m ++ [(aid, [t])]

/-- One child of the Values container, as processed by _extract_values of
core/dataset_understanding.py: Value children contribute their own text,
MultiValue children contribute the text of each nested Value; every text is
whitespace-normalized and dropped when the result is empty. -/
def extractValuesStep (m : List (String × List String)) (v : XElem) :
    List (String × List String) :=
  if v.tag == "Value" || v.tag == "MultiValue" then
    match v.attr "AttributeID" with
    | none => m
    | some aid =>
      if aid == "" then m
      else if v.tag == "MultiValue" then
        (v.findAll "Value").foldl
          (fun acc sv =>
            let t := normWs (sv.text.getD "")
            if t == "" then acc else valuesAdd acc aid t) m
      else
        let t := normWs (v.text.getD "")
        if t == "" then m else valuesAdd m aid t
  else m

/-- Function _extract_values of core/dataset_understanding.py. -/
def extract_values_du (e : XElem) : List (String × List String) :=
  match e.findChild "Values" with
  | none => []
  | some vn => vn.children.foldl extractValuesStep []

/-- A value entry of the products index built by extract_products_from_streams
(DEMO/stepxml/extract_products.py): normalized text plus the optional LOV
code carried by the Value@ID attribute. -/
structure ValueRecord where
  text : String
  id_code : Option String
deriving Repr, DecidableEq

/-- Dictionary assignment values_map[k] = vr (last writer wins). -/
def vmapSet (m : List (String × ValueRecord)) (k : String) (vr : ValueRecord) :
    List (String × ValueRecord) :=
  if m.any (fun p => p.1 == k) then
    m.map (fun p => if p.1 == k then (p.1, vr) else p)
  else m ++ [(k, vr)]

/-- The values_map construction of extract_products_from_streams: only Value
children are read; the attribute id is stripped and must be non-empty; the
text is whitespace-normalized and the record is stored only when that text is
non-empty. -/
def extract_products_values (valuesElem : XElem) : List (String × ValueRecord) :=
  (valuesElem.children.filter (fun c => c.tag == "Value")).foldl
    (fun m v =>
      let attrId := stripStr ((v.attr "AttributeID").getD "")
      if attrId == "" then m
      else
        let text := normWs (v.text.getD "")
        let idCode := stripStr ((v.attr "ID").getD "")
        let idCodeOpt : Option String := if idCode == "" then none else some idCode
        if text == "" then m else vmapSet m attrId ⟨text, idCodeOpt⟩) []

/-- Python truthiness of an optional string: None and the empty string are
falsy. -/
def pyTruthy (o : Option String) : Bool :=
  match o with
  | none => false
  | some s => !(s == "")

/-- Python a or b on optional strings. -/
def pyOr (a b : Option String) : Option String :=
  if pyTruthy a then a else b

/-- Python str() interpolation of an optional value inside an f-string:
None renders as the literal text None. -/
def pyStr (o : Option String) : String :=
  match o with
  | none => "None"
  | some s => s

/-- Counter increment m[k] += 1 on an insertion-ordered dictionary. -/
def countsAddBy {κ : Type} [BEq κ] (m : List (κ × Nat)) (k : κ) : List (κ × Nat) :=
  if m.any (fun p => p.1 == k) then
    m.map (fun p => if p.1 == k then (p.1, p.2 + 1) else p)
  else m ++ [(k, 1)]

/-- The extract_values helper of scripts/build_category_context.py: only
Value children are read, the text is stripped (not collapsed) and empty
results are dropped. -/
def extract_values_scripts (e : XElem) : List (String × List String) :=
  match e.findChild "Values" with
  | none => []
  | some vn =>
    vn.children.foldl
      (fun m v =>
        if v.tag == "Value" then
          match v.attr "AttributeID" with
          | none => m
          | some aid =>
            if aid == "" then m
            else
              let t := stripStr (v.text.getD "")
              if t == "" then m else valuesAdd m aid t
        else m) []

/-- First stored value of an attribute, vals.get(aid, [None])[0] guarded by
the truthiness test on the whole dictionary. -/
def labelVal (vals : List (String × List String)) (aid : String) : Option String :=
  if vals.isEmpty then none
  else
    match vals.lookup aid with
    | some l => l.head?
    | none => none

/-- Category key derivation of scripts/build_category_context.py: ParentID
when truthy, otherwise the dept, cat and subcat labels joined with a bar
(None values render as the text None, as in the Python f-string). -/
def catKeyOf (parentId : Option String) (dept cat subcat : Option String) : String :=
  if pyTruthy parentId then parentId.getD ""
  else pyStr dept ++ "|" ++ pyStr cat ++ "|" ++ pyStr subcat

/-- The per-category counters accumulated by build_category_context of
scripts/build_category_context.py: product count per category key and
attribute presence count per (category key, attribute id). -/
structure CatAgg where
  cat_products : List (String × Nat)
  cat_attr_presence : List ((String × String) × Nat)
deriving Repr, DecidableEq

/-- One step of the aggregation loop: derive the category key, count the
product, and count presence of every attribute id carried by the product. -/
def catAggStep (agg : CatAgg) (p : XElem) : CatAgg :=
  let vals := extract_values_scripts p
  let dept := labelVal vals "THD.HR.WebDepartment"
  let cat := labelVal vals "THD.HR.WebCategory"
  let subcat := labelVal vals "THD.HR.WebSubcategory"
  let ck := catKeyOf (p.attr "ParentID") dept cat subcat
  { cat_products := countsAddBy agg.cat_products ck
    cat_attr_presence :=
      (vals.map Prod.fst).foldl (fun m aid => countsAddBy m (ck, aid))
        agg.cat_attr_presence }

/-- The aggregation pass of build_category_context: only elements accepted
by iter_products are consumed. -/
def buildCategoryAgg (es : List XElem) : CatAgg :=
  (scripts_iter_products es).foldl catAggStep ⟨[], []⟩

/-- Rounding to a given number of decimal places, round(x, p). -/
def roundQ (prec : Nat) (q : ℚ) : ℚ :=
  ((round (q * (10 : ℚ) ^ prec) : ℤ) : ℚ) / (10 : ℚ) ^ prec

/-- The strong-attribute list of build_category_context
(scripts/build_category_context.py): attributes whose presence count over
the category product count reaches the threshold, as (id, count, rounded
ratio) triples sorted by descending rounded ratio, then descending count,
then id. -/
def strong_attrs_v1 (thr : ℚ) (n : Nat) (pres : List (String × Nat)) :
    List (String × Nat × ℚ) :=
  stableSortBy
    (fun a b =>
      decide (b.2.2 < a.2.2) ||
        (a.2.2 == b.2.2 &&
          (decide (b.2.1 < a.2.1) || (a.2.1 == b.2.1 && decide (a.1 ≤ b.1)))))
    ((pres.filter
        (fun p => decide (0 < n) && decide (thr ≤ (p.2 : ℚ) / (n : ℚ)))).map
      (fun p => (p.1, p.2, roundQ 3 ((p.2 : ℚ) / (n : ℚ)))))

/-- The presence ratio of build_category_context_dir_v2.py: cnt / n when the
category is non-empty, 0 otherwise. -/
def presence_frac_v2 (cnt n : Nat) : ℚ :=
  if n ≠ 0 then (cnt : ℚ) / (n : ℚ) else 0

/-- The strong-attribute test of build_category_context_dir_v2.py: the
presence ratio meets the threshold. -/
def is_strong_v2 (thr : ℚ) (cnt n : Nat) : Bool :=
  decide (thr ≤ presence_frac_v2 cnt n)

/-- The skip reasons of the v1 decision gate (scripts/build_category_context.py,
build_category_context): a product-count reason and a strong-attribute-count
reason; the v1 gate has no label condition. -/
def skip_reasons_v1 (minProducts minStrongAttrs n s : Nat) : List String :=
  (if n < minProducts then
    ["SKIP: products<" ++ toString minProducts ++ " (tiene " ++ toString n ++ ")"]
  else []) ++
  (if s < minStrongAttrs then
    ["SKIP: strong_attrs<" ++ toString minStrongAttrs ++ " (tiene " ++ toString s ++ ")"]
  else [])

/-- The v1 decision generate = (len(reasons) == 0). -/
def generate_v1 (minProducts minStrongAttrs n s : Nat) : Bool :=
  decide (skip_reasons_v1 minProducts minStrongAttrs n s = [])

/-- The skip reasons of the v2 decision gate
(scripts/build_category_context_dir_v2.py, build_category_context): product
count, strong-attribute count, and a label condition that inspects only the
web_subcategory and web_category labels; the web_department label is carried
in the labels dictionary but never tested. -/
def skip_reasons_v2 (minProducts minStrongAttrs n s : Nat)
    (webDepartment webCategory webSubcategory : Option String) : List String :=
  (if n < minProducts then ["min_products<" ++ toString minProducts] else []) ++
  (if s < minStrongAttrs then ["min_strong_attrs<" ++ toString minStrongAttrs] else []) ++
  (if webSubcategory = none ∧ webCategory = none then ["no_web_labels"] else [])

/-- The v2 decision generate = (len(skip_reasons) == 0). -/
def generate_v2 (minProducts minStrongAttrs n s : Nat)
    (webDepartment webCategory webSubcategory : Option String) : Bool :=
  decide (skip_reasons_v2 minProducts minStrongAttrs n s
    webDepartment webCategory webSubcategory = [])

/-! The category knowledge base of core/dataset_understanding.py: a
persisted, key-addressed collection merged incrementally by
kb_merge_categories, re-flagged by the post-merge breadcrumb check of
analyze_dataset, and sorted by kb_save. -/

/-- A persisted knowledge-base entry (one JSONL row of category_kb.jsonl). -/
structure KBEntry where
  category_key : String
  breadcrumb : String
  product_count : Int
  locale : String
  needs_review : Bool
  notes : String
  history : List String
deriving Repr, DecidableEq

/-- One input category row as produced by build_category_map: the key, an
optional breadcrumb and a product count. -/
structure CatRow where
  category_key : String
  breadcrumb : Option String
  product_count : Int
deriving Repr, DecidableEq

/-- The breadcrumb actually used by the merge and the post-merge check,
c.get("breadcrumb") or ck: the category key when the stored breadcrumb is
missing or empty. -/
def rowBreadcrumb (c : CatRow) : String :=
  match c.breadcrumb with
  | none => c.category_key
  | some b => if b == "" then c.category_key else b

/-- Dictionary assignment kb[ck] = entry: replace in place when the key
exists, append otherwise. -/
def kbSet (kb : List (String × KBEntry)) (k : String) (e : KBEntry) :
    List (String × KBEntry) :=
  if kb.any (fun p => p.1 == k) then
    kb.map (fun p => if p.1 == k then (p.1, e) else p)
  else kb ++ [(k, e)]

/-- The entry inserted by kb_merge_categories for an unseen category key:
flagged for review and marked auto-detected. -/
def kbFreshEntry (loc : String) (c : CatRow) : KBEntry :=
  { category_key := c.category_key
    breadcrumb := rowBreadcrumb c
    product_count := c.product_count
    locale := loc
    needs_review := true
    notes := "auto_detected_from_dataset"
    history := [] }

/-- The in-place update applied by kb_merge_categories to an existing entry:
breadcrumb and product count are refreshed, the locale is kept unless it was
previously falsy, and needs_review is not touched. -/
def kbUpdateEntry (loc : String) (c : CatRow) (e : KBEntry) : KBEntry :=
  { e with
    breadcrumb := rowBreadcrumb c
    product_count := c.product_count
    locale := if e.locale == "" then loc else e.locale }

/-- The two counters reported by kb_merge_categories. -/
structure MergeStats where
  new_categories_added : Nat
  categories_updated : Nat
deriving Repr, DecidableEq

/-- Function kb_merge_categories of core/dataset_understanding.py: an upsert
by category key over the input list, counting insertions and updates. -/
def kb_merge_categories (kb : List (String × KBEntry)) (cats : List CatRow)
    (loc : String) : List (String × KBEntry) × MergeStats :=
  match cats with
  | [] => (kb, ⟨0, 0⟩)
  | c :: rest =>
    match kb.lookup c.category_key with
    | none =>
      let step := kb_merge_categories (kb ++ [(c.category_key, kbFreshEntry loc c)]) rest loc
      (step.1, ⟨step.2.new_categories_added + 1, step.2.categories_updated⟩)
    | some e =>
      let step := kb_merge_categories (kbSet kb c.category_key (kbUpdateEntry loc c e)) rest loc
      (step.1, ⟨step.2.new_categories_added, step.2.categories_updated + 1⟩)

/-- The post-merge breadcrumb check inside the packs loop of analyze_dataset:
for each input category, when the stripped breadcrumb coincides with the
stripped key, the entry is re-flagged needs_review = True.  The entry always
exists at this point because the merge ran first. -/
def kbPostMergeCheck (kb : List (String × KBEntry)) (cats : List CatRow) :
    List (String × KBEntry) :=
  match cats with
  | [] => kb
  | c :: rest =>
    let kb' :=
      if stripStr (rowBreadcrumb c) == stripStr c.category_key then
        match kb.lookup c.category_key with
        | some e => kbSet kb c.category_key { e with needs_review := true }
        | none => kb
      else kb
    kbPostMergeCheck kb' rest

/-- The automated merge as analyze_dataset performs it: kb_merge_categories
followed by the post-merge breadcrumb check over the same category list. -/
def kbMergePhase (kb : List (String × KBEntry)) (cats : List CatRow)
    (loc : String) : List (String × KBEntry) :=
  kbPostMergeCheck (kb_merge_categories kb cats loc).1 cats

/-- The sort comparison of kb_save: ascending lexicographic order on the key
(needs_review, -product_count), where False sorts before True. -/
def kbSaveLe (a b : KBEntry) : Bool :=
  (!a.needs_review && b.needs_review) ||
    (a.needs_review == b.needs_review && decide (b.product_count ≤ a.product_count))

/-- The row order persisted by kb_save of core/dataset_understanding.py:
the entries of the store sorted stably by (needs_review, -product_count). -/
def kb_save_rows (kb : List (String × KBEntry)) : List KBEntry :=
  stableSortBy kbSaveLe (kb.map Prod.snd)

/-! Hierarchy path resolution of DEMO/stepxml/staging.py. -/

/-- A hierarchy node as read from the hierarchy export (the attribute-link
payload carried by the dataclass is irrelevant to path resolution and is
omitted). -/
structure HNode where
  node_id : String
  user_type_id : String
  parent_id : Option String
  name : String
deriving Repr, DecidableEq

/-- The loop condition of path_for: the cursor is truthy, unseen, and
resolvable in the hierarchy. -/
def walkCond (h : List (String × HNode)) (cur : Option String)
    (seen : List String) : Bool :=
  match cur with
  | none => false
  | some c => !(c == "") && !(seen.contains c) && (h.lookup c).isSome

/-- The successor cursor, n.parent_id if n.parent_id in hierarchy else None. -/
def nextCur (h : List (String × HNode)) (nd : HNode) : Option String :=
  match nd.parent_id with
  | none => none
  | some p => if (h.lookup p).isSome then some p else none

/-- The upward walk of path_for, made total by a fuel parameter: it returns
the collected display names (in visit order) and the visited set, or none if
the fuel runs out while the loop condition still holds.  Fuel equal to the
hierarchy size plus one always suffices, as proved below. -/
def pathWalk (h : List (String × HNode)) :
    Nat → Option String → List String → List String →
      Option (List String × List String)
  | 0, cur, seen, parts =>
    if walkCond h cur seen then none else some (parts, seen)
  | fuel + 1, cur, seen, parts =>
    match cur with
    | none => some (parts, seen)
    | some c =>
      if c == "" then some (parts, seen)
      else if seen.contains c then some (parts, seen)
      else
        match h.lookup c with
        | none => some (parts, seen)
        | some nd =>
          pathWalk h fuel (nextCur h nd) (c :: seen)
            (parts ++ [if nd.name == "" then nd.node_id else nd.name])

/-- Function path_for of build_category_paths: run the walk with enough
fuel, reverse the collected names root-first, drop empties and join. -/
def path_for (h : List (String × HNode)) (nodeId : String) : String :=
  match pathWalk h (h.length + 1) (some nodeId) [] [] with
  | some (parts, _) => " > ".intercalate (parts.reverse.filter (fun p => !(p == "")))
  | none => ""

/-- Function build_category_paths of DEMO/stepxml/staging.py: every node id
maps to its resolved path, defaulting to the raw node id when the path
resolves to the empty string. -/
def build_category_paths (h : List (String × HNode)) : List (String × String) :=
  h.map (fun p =>
    let s := path_for h p.1
    (p.1, if s == "" then p.1 else s))

/-! Locale detection of core/dataset_understanding.py. -/

/-- The Spanish marker words of detect_locale. -/
def esMarkers : List String :=
  ["EL", "LA", "LOS", "LAS", "PARA", "CON", "EN", "SIN", "DE", "DEL", "AL"]

/-- The English marker words of detect_locale. -/
def enMarkers : List String :=
  ["THE", "WITH", "FOR", "IN", "WITHOUT", "AND", "OR", "OF"]

/-- The character class of the token regex of detect_locale: ASCII letters
plus the accented Spanish letters listed in the pattern. -/
def isLocAlpha (c : Char) : Bool :=
  (decide ('A' ≤ c) && decide (c ≤ 'Z')) || (decide ('a' ≤ c) && decide (c ≤ 'z')) ||
    "ÁÉÍÓÚÜÑáéíóúüñ".data.contains c

/-- Maximal runs of characters satisfying a predicate (re.findall of a
one-class-plus pattern), accumulated structurally. -/
def runsAux (p : Char → Bool) (cur : List Char) : List Char → List (List Char)
  | [] => if cur.isEmpty then [] else [cur.reverse]
  | c :: cs =>
    if p c then runsAux p (c :: cur) cs
    else if cur.isEmpty then runsAux p [] cs
    else cur.reverse :: runsAux p [] cs

/-- All maximal alphabetic runs of a sample string. -/
def alphaRuns (s : String) : List (List Char) :=
  runsAux isLocAlpha [] s.data

/-- Uppercasing of one character as str.upper behaves on the alphabet of the
token regex: ASCII via toUpper, the accented letters via an explicit table. -/
def upChar (c : Char) : Char :=
  (([('á', 'Á'), ('é', 'É'), ('í', 'Í'), ('ó', 'Ó'), ('ú', 'Ú'), ('ü', 'Ü'),
      ('ñ', 'Ñ')].lookup c).getD c.toUpper)

/-- The uppercased tokens of one text sample, tokens_up of detect_locale. -/
def tokensUp (s : String) : List String :=
  (alphaRuns s).map (fun r => ⟨r.map upChar⟩)

/-- Total token count over the first 140 samples. -/
def localeTotalTokens (samples : List String) : Nat :=
  ((samples.take 140).map (fun s => (tokensUp s).length)).sum

/-- Marker score over the first 140 samples for a given marker set. -/
def localeScore (markers : List String) (samples : List String) : Nat :=
  ((samples.take 140).map
    (fun s => ((tokensUp s).filter (fun t => markers.contains t)).length)).sum

/-- The result record of detect_locale (the evidence payload reduced to its
discriminating tag). -/
structure LocaleResult where
  locale : String
  confidence : ℚ
  evidence : String
deriving Repr, DecidableEq

/-- The confidence formula of a determined locale: the score margin over the
token count, scaled, shifted, capped at 0.95 and rounded to two decimals. -/
def localeConfidence (winner loser total : Nat) : ℚ :=
  roundQ 2 (min (95 / 100 : ℚ)
    (((winner : ℚ) - (loser : ℚ)) / (max 1 total : ℚ) * 10 + 55 / 100))

/-- Function detect_locale of core/dataset_understanding.py. -/
def detect_locale (samples : List String) : LocaleResult :=
  if samples.isEmpty then ⟨"und", 0, "no_text_samples"⟩
  else
    let total := localeTotalTokens samples
    let esScore := localeScore esMarkers samples
    let enScore := localeScore enMarkers samples
    if total == 0 then ⟨"und", 0, "no_tokens"⟩
    else if enScore < esScore then
      ⟨"es-MX", localeConfidence esScore enScore total, "scores"⟩
    else if esScore < enScore then
      ⟨"en-US", localeConfidence enScore esScore total, "scores"⟩
    else ⟨"und", 3 / 10, "scores"⟩

/-! The Auto-Group Selector of scripts/build_ai_jobs_categories_auto.py.
The transcendental math.log that enters the diversity entropy is kept
abstract as a parameter logQ of the embedding: every theorem below holds
for an arbitrary interpretation of the logarithm, which is exactly the
regardless-of-score reading of the selection contract. -/

/-- The Spanish stopword set of the tokenizer. -/
def stopwordsES : List String :=
  ["de", "la", "el", "y", "en", "para", "con", "sin", "por", "a", "un", "una",
   "unos", "unas", "los", "las", "al", "del", "su", "sus", "se", "que", "es",
   "son", "como", "más", "menos", "o", "u", "lo", "ya", "muy", "este", "esta",
   "estos", "estas"]

/-- Lowercasing of one character as str.lower behaves on this alphabet:
ASCII via toLower, accented capitals via an explicit table. -/
def lowChar (c : Char) : Char :=
  (([('Á', 'á'), ('É', 'é'), ('Í', 'í'), ('Ó', 'ó'), ('Ú', 'ú'), ('Ü', 'ü'),
      ('Ñ', 'ñ')].lookup c).getD c.toLower)

/-- The word characters kept by the substitution of normalize_text after
lowercasing: alphanumerics, underscore and the accented letters of the
pattern. -/
def isTokWordChar (c : Char) : Bool :=
  c.isAlphanum || c == '_' || "áéíóúñü".data.contains c

/-- Function normalize_text: strip, lowercase, replace every character that
is neither a word character nor whitespace by a space, collapse whitespace
and strip again. -/
def normalize_text (s : String) : String :=
  let l := (stripL s.data).map lowChar
  let l := l.map (fun c => if isTokWordChar c || isWs c then c else ' ')
  ⟨normWsL l⟩

/-- Splitting on single spaces, str.split(" "): empty fields are kept. -/
def splitSpacesAux (cur : List Char) : List Char → List String
  | [] => [⟨cur.reverse⟩]
  | c :: cs =>
    if c == ' ' then (⟨cur.reverse⟩ : String) :: splitSpacesAux [] cs
    else splitSpacesAux (c :: cur) cs

/-- Function tokenize of scripts/build_ai_jobs_categories_auto.py: normalize,
split on spaces, and keep the non-empty non-stopword tokens longer than two
characters. -/
def tokenize (s : String) : List String :=
  (splitSpacesAux [] (normalize_text s).data).filter
    (fun t => !(t == "") && !(stopwordsES.contains t) && decide (2 < t.length))

/-- One classification reference of a compact product row. -/
structure Classification where
  classification_id : Option String
  cls_type : Option String
deriving Repr, DecidableEq

/-- A compact product row as read by the auto-group selector, with the pairs
of alias keys the Python reads through p.get(k1) or p.get(k2), the nested
desc_attrs name fields flattened to an attribute-to-text dictionary, and the
erp-hierarchy subclass name. -/
structure AutoProduct where
  pid : Option String
  product_id : Option String
  name : Option String
  product_name : Option String
  parent_id : Option String
  parent_id_alias : Option String
  user_type_id : Option String
  user_type_id_alias : Option String
  desc_attrs : List (String × String)
  classifications : List Classification
  erp_subclass_name : Option String
deriving Repr, DecidableEq

/-- Function extract_product_text_signals: the name joined with the short
description, label and model attribute texts. -/
def extract_product_text_signals (p : AutoProduct) : String :=
  let name := (pyOr p.name p.product_name).getD ""
  let short := (p.desc_attrs.lookup "THD.PR.WebShortDescription").getD ""
  let label := (p.desc_attrs.lookup "THD.PR.Label").getD ""
  let model := (p.desc_attrs.lookup "THD.PR.Model").getD ""
  " ".intercalate [name, short, label, model]

/-- Grouped index accumulation groups[(group_type, group_key)].append(i). -/
def groupsAdd (g : List ((String × String) × List Nat)) (k : String × String)
    (i : Nat) : List ((String × String) × List Nat) :=
  if g.any (fun p => p.1 == k) then
    g.map (fun p => if p.1 == k then (p.1, p.2 ++ [i]) else p)
  else g ++ [(k, [i])]

/-- Function build_candidates: three competing grouping strategies over the
enumerated product list (parent id, classification type plus id, declared
user type). -/
def build_candidates (products : List AutoProduct) :
    List ((String × String) × List Nat) :=
  products.enum.foldl
    (fun g ip =>
      let i := ip.1
      let p := ip.2
      let g :=
        match pyOr p.parent_id p.parent_id_alias with
        | some pid => if pid == "" then g else groupsAdd g ("by_parent_id", pid) i
        | none => g
      let g := p.classifications.foldl
        (fun g c =>
          if pyTruthy c.classification_id && pyTruthy c.cls_type then
            groupsAdd g
              ("by_classification", (c.cls_type.getD "") ++ "::" ++ (c.classification_id.getD ""))
              i
          else g) g
      match pyOr p.user_type_id p.user_type_id_alias with
      | some ut => if ut == "" then g else groupsAdd g ("by_user_type", ut) i
      | none => g) []

/-- One retained example row of a group. -/
structure GroupExample where
  ex_product_id : Option String
  ex_product_name : Option String
  ex_model : Option String
  ex_short_desc : Option String
deriving Repr, DecidableEq

/-- The statistics record of one candidate group. -/
structure GroupStats where
  group_key : String
  group_type : String
  product_count : Nat
  coherence : ℚ
  diversity : ℚ
  top_terms : List String
  examples : List GroupExample
  score : ℚ
deriving Repr, DecidableEq

/-- Counter.most_common(k): entries sorted stably by descending count,
truncated to k. -/
def mostCommon (m : List (String × Nat)) (k : Nat) : List (String × Nat) :=
  (stableSortBy (fun a b => decide (b.2 ≤ a.2)) m).take k

/-- The epsilon added inside the logarithms of the diversity entropy. -/
def entEps : ℚ := 1 / 1000000000000

/-- The internal subtype of one product: the erp subclass when truthy,
otherwise a type::id rendering of the first classification when one exists. -/
def productSubtype (p : AutoProduct) : Option String :=
  if pyTruthy p.erp_subclass_name then p.erp_subclass_name
  else
    match p.classifications.head? with
    | some c => some ((c.cls_type.getD "") ++ "::" ++ (c.classification_id.getD ""))
    | none => none

/-- Function compute_group_stats of scripts/build_ai_jobs_categories_auto.py,
parameterized by the interpretation logQ of math.log.  Returns none when the
group is smaller than min_products or has no name tokens at all. -/
def compute_group_stats (logQ : ℚ → ℚ) (gtype gkey : String) (idxs : List Nat)
    (products : List AutoProduct) (minProducts : Nat) : Option GroupStats :=
  let n := idxs.length
  if n < minProducts then none
  else
    let ps := idxs.filterMap (fun i => products[i]?)
    let termCounts := ps.foldl
      (fun m p => (tokenize (extract_product_text_signals p)).foldl countsAddBy m) []
    let subtypeCounts := ps.foldl
      (fun m p =>
        match productSubtype p with
        | some sub => if sub == "" then m else countsAddBy m sub
        | none => m) []
    let examples := (ps.take 8).map
      (fun p =>
        { ex_product_id := pyOr p.pid p.product_id
          ex_product_name := pyOr p.name p.product_name
          ex_model := p.desc_attrs.lookup "THD.PR.Model"
          ex_short_desc := p.desc_attrs.lookup "THD.PR.WebShortDescription" })
    if termCounts.isEmpty then none
    else
      let topTerms := (mostCommon termCounts 35).map Prod.fst
      let totalTerms := (termCounts.map Prod.snd).sum
      let topMass := ((topTerms.take 15).map
        (fun t => (termCounts.lookup t).getD 0)).sum
      let coherence := (topMass : ℚ) / (max totalTerms 1 : ℚ)
      let diversity :=
        if !subtypeCounts.isEmpty then
          let probs := subtypeCounts.map (fun q => (q.2 : ℚ) / (n : ℚ))
          let ent := -((probs.map (fun q => q * logQ (q + entEps))).sum)
          ent / (if 1 < probs.length then logQ ((probs.length : ℚ) + entEps) else 1)
        else 1 / 2
      let sizeTerm : ℚ := if 1500 < n then 6 / 10 else if 800 < n then 8 / 10 else 1
      let divPenalty : ℚ := 1 - min (|diversity - 55 / 100|) (55 / 100) / (55 / 100)
      let score := coherence * (55 / 100) + divPenalty * (35 / 100) + sizeTerm * (1 / 10)
      some
        { group_key := gkey
          group_type := gtype
          product_count := n
          coherence := coherence
          diversity := diversity
          top_terms := topTerms
          examples := examples
          score := score }

/-- The configuration of select_best_groups. -/
structure AutoCfg where
  min_products : Nat
  max_groups : Nat
  score_threshold : ℚ
deriving Repr, DecidableEq

/-- The selection loop of select_best_groups: skip groups below the score
threshold, collect the rest, and stop as soon as the selected count reaches
max_groups (the length test runs after the append, so with max_groups = 0 a
first qualifying group is still appended before the loop stops). -/
def selectLoop (thr : ℚ) (maxg : Nat) :
    List GroupStats → List GroupStats → List GroupStats
  | [], acc => acc.reverse
  | s :: rest, acc =>
    if s.score < thr then selectLoop thr maxg rest acc
    else if maxg ≤ acc.length + 1 then (s :: acc).reverse
    else selectLoop thr maxg rest (s :: acc)

/-- Function select_best_groups of scripts/build_ai_jobs_categories_auto.py:
score all candidate groups, sort stably by descending (score, size), and run
the selection loop. -/
def select_best_groups (logQ : ℚ → ℚ) (products : List AutoProduct)
    (cfg : AutoCfg) : List GroupStats :=
  let stats := (build_candidates products).filterMap
    (fun c => compute_group_stats logQ c.1.1 c.1.2 c.2 products cfg.min_products)
  let sorted := stableSortBy
    (fun a b =>
      decide (b.score < a.score) ||
        (a.score == b.score && decide (b.product_count ≤ a.product_count)))
    stats
  selectLoop cfg.score_threshold cfg.max_groups sorted []

/-! Concrete inputs used by the counterexamples and witnesses below, and a
measure used by the termination argument for path resolution. -/

/-- The number of hierarchy keys not yet visited: the decreasing measure of
the upward walk. -/
def notSeenKeys (h : List (String × HNode)) (seen : List String) : Nat :=
  ((h.map Prod.fst).filter (fun k => !seen.contains k)).length

/-- A two-node hierarchy whose parent pointers form a cycle. -/
def hierCyc : List (String × HNode) :=
  [("A", ⟨"A", "hier", some "B", "Alpha"⟩), ("B", ⟨"B", "hier", some "A", "Beta"⟩)]

/-- A Product node carrying no record-type tag at all. -/
def prodNoTag : XElem := .node "Product" [("ID", "p77")] none []

/-- A Product node carrying a draft record-type tag. -/
def prodDraft : XElem :=
  .node "Product" [("ID", "p1"), ("UserTypeID", "PMDM.PRD.Draft")] none []

/-- A golden-record Product node with one attribute value. -/
def prodGold : XElem :=
  .node "Product" [("ID", "p2"), ("UserTypeID", "PMDM.PRD.GoldenRecord"), ("ParentID", "CAT1")]
    none
    [.node "Values" [] none
      [.node "Value" [("AttributeID", "THD.PR.WebName")] (some "Taladro") []]]

/-- A Product node whose Values container mixes a single value needing
normalization, a whitespace-only value and a MultiValue entry. -/
def prodVals : XElem :=
  .node "Product" [("ID", "p3"), ("UserTypeID", "PMDM.PRD.GoldenRecord")] none
    [.node "Values" [] none
      [.node "Value" [("AttributeID", "A1")] (some "  rojo   mate ") [],
       .node "Value" [("AttributeID", "A2")] (some "   ") [],
       .node "MultiValue" [("AttributeID", "A3")] none
         [.node "Value" [] (some " uno ") [], .node "Value" [] (some "") []]]]

/-- A compact product row grouped by parent id, used to exercise the
auto-group selector concretely. -/
def prodC4 : AutoProduct :=
  { pid := some "1", product_id := none, name := some "martillo", product_name := none,
    parent_id := some "P1", parent_id_alias := none, user_type_id := none,
    user_type_id_alias := none, desc_attrs := [], classifications := [],
    erp_subclass_name := none }

/-- The group statistics the selector computes for prodC4 under the zero
logarithm. -/
def gsC4 : GroupStats :=
  { group_key := "P1", group_type := "by_parent_id", product_count := 1,
    coherence := 1, diversity := 1 / 2, top_terms := ["martillo"],
    examples := [⟨some "1", some "martillo", none, none⟩], score := 213 / 220 }

/-- An unreviewed high-impact knowledge-base entry. -/
def kbEntryUnrev : KBEntry :=
  ⟨"A", "Depto > Cat", 100, "es-MX", true, "auto_detected_from_dataset", []⟩

/-- A reviewed low-impact knowledge-base entry. -/
def kbEntryRev : KBEntry := ⟨"B", "Depto > Otra", 1, "es-MX", false, "curated", []⟩

/-- A store holding one unreviewed and one reviewed entry. -/
def kbC9 : List (String × KBEntry) := [("A", kbEntryUnrev), ("B", kbEntryRev)]

/-- Two category rows with distinct keys, as in the merge scenario. -/
def catsTwo : List CatRow :=
  [⟨"CAT1", some "Hogar > Cocina", 12⟩, ⟨"CAT2", none, 30⟩]

/-- One category row repeated, a list with a duplicated key. -/
def catsDup : List CatRow := [⟨"CAT1", some "Hogar > Cocina", 12⟩, ⟨"CAT1", some "Hogar > Cocina", 12⟩]

/-- A store with one entry already flagged for review, and one clean entry. -/
def kbC1 : List (String × KBEntry) :=
  [("CAT1", ⟨"CAT1", "Hogar > Cocina", 5, "es-MX", true, "auto_detected_from_dataset", []⟩),
   ("CAT2", ⟨"CAT2", "Hogar > Limpieza", 7, "es-MX", false, "curated", []⟩)]

/-- Category rows whose second entry has a breadcrumb degenerating to the
bare key. -/
def catsC1 : List CatRow :=
  [⟨"CAT1", some "Hogar > Cocina", 6⟩, ⟨"CAT2", none, 9⟩]

/-! General helper lemmas about folds and association-list lookup. -/

theorem dropWhile_head_false {p : Char → Bool} {x : Char} {m : List Char}
    (h : List.dropWhile p (x :: m) = x :: m) : p x = false := by
  by_contra hx
  have hx' : p x = true := by
    cases hpx : p x with
    | false => exact absurd hpx hx
    | true => rfl
  rw [List.dropWhile_cons, if_pos hx'] at h
  have hle : (List.dropWhile p m).length ≤ m.length :=
    (List.dropWhile_sublist p).length_le
  have hlen := congrArg List.length h
  simp only [List.length_cons] at hlen
  omega

theorem dropWhile_of_rdropWhile (a : List Char) (hxa : a.dropWhile isWs = a) :
    (a.rdropWhile isWs).dropWhile isWs = a.rdropWhile isWs := by
  obtain ⟨t, ht⟩ : a.reverse.dropWhile isWs <:+ a.reverse := List.dropWhile_suffix isWs
  have hsplit : a = (a.reverse.dropWhile isWs).reverse ++ t.reverse := by
    have := congrArg List.reverse ht
    simpa [List.reverse_append] using this.symm
  unfold List.rdropWhile
  cases hc : (a.reverse.dropWhile isWs).reverse with
  | nil => rfl
  | cons x xs =>
    have hax : a = x :: (xs ++ t.reverse) := by
      rw [hsplit, hc]; simp
    have hx : isWs x = false := by
      apply dropWhile_head_false
      rw [← hax]; exact hxa
    rw [List.dropWhile_cons, if_neg (by simp [hx])]

theorem stripL_idem (l : List Char) : stripL (stripL l) = stripL l := by
  unfold stripL
  rw [dropWhile_of_rdropWhile _ (List.dropWhile_idempotent isWs l),
    List.rdropWhile_idempotent]

theorem stripStr_idem (s : String) : stripStr (stripStr s) = stripStr s := by
  unfold stripStr
  simp [stripL_idem]

theorem normWsL_has_nonws (l : List Char) (h : normWsL l ≠ []) :
    ∃ c ∈ normWsL l, isWs c = false := by
  have h' : ((collapseWs l).dropWhile isWs).rdropWhile isWs ≠ [] := h
  refine ⟨((collapseWs l).dropWhile isWs).rdropWhile isWs |>.getLast h', ?_, ?_⟩
  · exact List.getLast_mem h'
  · have := List.rdropWhile_last_not isWs ((collapseWs l).dropWhile isWs) h'
    simpa using this

theorem perm_insertSorted {α : Type} (le : α → α → Bool) (x : α) (l : List α) :
    (insertSorted le x l).Perm (x :: l) := by
  induction l with
  | nil => simp [insertSorted]
  | cons y ys ih =>
    by_cases h : le x y = true
    · simp [insertSorted, h]
    · simp only [insertSorted, if_neg h]
      exact (List.Perm.cons y ih).trans (List.Perm.swap x y ys)

theorem perm_stableSortBy {α : Type} (le : α → α → Bool) (l : List α) :
    (stableSortBy le l).Perm l := by
  induction l with
  | nil => simp [stableSortBy]
  | cons y ys ih =>
    exact (perm_insertSorted le y (stableSortBy le ys)).trans (List.Perm.cons y ih)

theorem mem_stableSortBy {α : Type} {le : α → α → Bool} {x : α} {l : List α} :
    x ∈ stableSortBy le l ↔ x ∈ l :=
  (perm_stableSortBy le l).mem_iff

theorem pairwise_insertSorted {α : Type} {le : α → α → Bool}
    (htr : ∀ a b c, le a b = true → le b c = true → le a c = true)
    (hto : ∀ a b, le a b = true ∨ le b a = true)
    (x : α) (l : List α) (hl : l.Pairwise (fun a b => le a b = true)) :
    (insertSorted le x l).Pairwise (fun a b => le a b = true) := by
  induction l with
  | nil => simp [insertSorted]
  | cons y ys ih =>
    rcases List.pairwise_cons.mp hl with ⟨hy, hys⟩
    by_cases h : le x y = true
    · simp only [insertSorted, if_pos h]
      refine List.pairwise_cons.mpr ⟨?_, hl⟩
      intro b hb
      rcases List.mem_cons.mp hb with rfl | hb'
      · exact h
      · exact htr x y b h (hy _ hb')
    · simp only [insertSorted, if_neg h]
      refine List.pairwise_cons.mpr ⟨?_, ih hys⟩
      intro b hb
      have hmem : b ∈ insertSorted le x ys := hb
      have : b = x ∨ b ∈ ys := by
        have := (perm_insertSorted le x ys).mem_iff.mp hmem
        simpa using this
      rcases this with rfl | hbys
      · rcases hto y b with hyb | hby
        · exact hyb
        · exact (h hby).elim
      · exact hy _ hbys

theorem pairwise_stableSortBy {α : Type} {le : α → α → Bool}
    (htr : ∀ a b c, le a b = true → le b c = true → le a c = true)
    (hto : ∀ a b, le a b = true ∨ le b a = true) (l : List α) :
    (stableSortBy le l).Pairwise (fun a b => le a b = true) := by
  induction l with
  | nil => simp [stableSortBy]
  | cons y ys ih => exact pairwise_insertSorted htr hto y _ ih


theorem foldl_invariant {α β : Type} (P : β → Prop) (f : β → α → β)
    (hf : ∀ b a, P b → P (f b a)) :
    ∀ (l : List α) (b : β), P b → P (l.foldl f b) := by
  intro l
  induction l with
  | nil => intro b hb; exact hb
  | cons a tl ih => intro b hb; exact ih (f b a) (hf b a hb)

theorem lookup_mem {β : Type} :
    ∀ {l : List (String × β)} {k : String} {v : β},
      l.lookup k = some v → (k, v) ∈ l := by
  intro l
  induction l with
  | nil => intro k v h; simp [List.lookup] at h
  | cons p tl ih =>
    intro k v h
    cases hk : (k == p.1) with
    | true =>
      simp only [List.lookup, hk] at h
      have hk' : k = p.1 := by simpa using hk
      cases h
      cases p
      cases hk'
      exact List.mem_cons_self _ _
    | false =>
      simp only [List.lookup, hk] at h
      exact List.mem_cons_of_mem _ (ih h)

theorem lookup_append_some {β : Type} {l1 l2 : List (String × β)} {k : String}
    {v : β} (h : l1.lookup k = some v) : (l1 ++ l2).lookup k = some v := by
  induction l1 with
  | nil => simp [List.lookup] at h
  | cons p tl ih =>
    rw [List.cons_append]
    cases hk : (k == p.1) with
    | true => simpa only [List.lookup, hk] using h
    | false =>
      simp only [List.lookup, hk] at h ⊢
      exact ih h

theorem lookup_append_none {β : Type} {l1 l2 : List (String × β)} {k : String}
    (h : l1.lookup k = none) : (l1 ++ l2).lookup k = l2.lookup k := by
  induction l1 with
  | nil => simp
  | cons p tl ih =>
    rw [List.cons_append]
    cases hk : (k == p.1) with
    | true =>
      simp only [List.lookup, hk] at h
      cases h
    | false =>
      simp only [List.lookup, hk] at h ⊢
      exact ih h

/-- C2 (counterexample): a category processed by the v2 gate with 30
products, 8 strong attributes and a web_department label, but no
web_category or web_subcategory label, fails the gate even though a
hierarchy label is present, so generate_category_description is not
equivalent to the conjunction claimed (the v2 gate ignores the department
label, and the v1 gate has no label condition at all). -/
theorem gate_label_counterexample :
    generate_v2 30 8 30 8 (some "Electrodomesticos") none none = false ∧
    (30 ≤ 30 ∧ 8 ≤ 8 ∧ (some "Electrodomesticos" : Option String) ≠ none) ∧
    skip_reasons_v2 30 8 30 8 (some "Electrodomesticos") none none = ["no_web_labels"] := by
  refine ⟨by decide, ⟨by decide, by decide, by decide⟩, by decide⟩

/-- C2 (amended): the v2 gate is true exactly when the product count and
strong-attribute count reach their thresholds and a web_category or
web_subcategory label is present (web_department does not count); each
failing condition contributes its specific reason, and the gate is false
exactly when the reason list is non-empty. The v1 gate checks only the two
counts, with the same reason discipline. -/
theorem gate_decision_characterization :
    ∀ (minp mins n s : Nat) (wd wc ws : Option String),
      (generate_v2 minp mins n s wd wc ws = true ↔
        (minp ≤ n ∧ mins ≤ s ∧ (wc ≠ none ∨ ws ≠ none))) ∧
      (generate_v2 minp mins n s wd wc ws = false ↔
        skip_reasons_v2 minp mins n s wd wc ws ≠ []) ∧
      (n < minp →
        ("min_products<" ++ toString minp) ∈ skip_reasons_v2 minp mins n s wd wc ws) ∧
      (s < mins →
        ("min_strong_attrs<" ++ toString mins) ∈ skip_reasons_v2 minp mins n s wd wc ws) ∧
      (wc = none ∧ ws = none →
        "no_web_labels" ∈ skip_reasons_v2 minp mins n s wd wc ws) ∧
      (generate_v1 minp mins n s = true ↔ (minp ≤ n ∧ mins ≤ s)) ∧
      (generate_v1 minp mins n s = false ↔ skip_reasons_v1 minp mins n s ≠ []) ∧
      (n < minp →
        ("SKIP: products<" ++ toString minp ++ " (tiene " ++ toString n ++ ")")
          ∈ skip_reasons_v1 minp mins n s) ∧
      (s < mins →
        ("SKIP: strong_attrs<" ++ toString mins ++ " (tiene " ++ toString s ++ ")")
          ∈ skip_reasons_v1 minp mins n s) := by
  intro minp mins n s wd wc ws
  by_cases hn : n < minp <;> by_cases hs : s < mins <;>
    by_cases hws : ws = none <;> by_cases hwc : wc = none <;>
      simp [generate_v2, skip_reasons_v2, generate_v1, skip_reasons_v1,
        hn, hs, hws, hwc] <;> omega

/-- C2 (witness): a category with 10 products at threshold 30 fails the v2
gate and carries the product-count shortfall reason. -/
theorem gate_decision_characterization_witness :
    generate_v2 30 8 10 9 none (some "Pisos") none = false ∧
    ("min_products<" ++ toString 30) ∈ skip_reasons_v2 30 8 10 9 none (some "Pisos") none := by
  have h := gate_decision_characterization 30 8 10 9 none (some "Pisos") none
  exact ⟨h.2.1.mpr (by decide), h.2.2.1 (by decide)⟩

/-- C8: an attribute with presence count c in a category of n products is
listed strong by the v1 scorer exactly when it is counted and its exact
ratio c / n reaches the threshold; the v2 presence ratio equals c / n for
non-empty categories and the v2 strong test is the same threshold
comparison; an attribute present in 2 of 3 products is strong at threshold
0.6 and not at 0.7. -/
theorem presence_ratio_strong_iff :
    ∀ (thr : ℚ) (n : Nat) (pres : List (String × Nat)) (aid : String) (c : Nat),
      0 < n →
      (((aid, c, roundQ 3 ((c : ℚ) / (n : ℚ))) ∈ strong_attrs_v1 thr n pres) ↔
        ((aid, c) ∈ pres ∧ thr ≤ (c : ℚ) / (n : ℚ))) ∧
      presence_frac_v2 c n = (c : ℚ) / (n : ℚ) ∧
      (is_strong_v2 thr c n = true ↔ thr ≤ (c : ℚ) / (n : ℚ)) ∧
      is_strong_v2 (6 / 10) 2 3 = true ∧ is_strong_v2 (7 / 10) 2 3 = false := by
  intro thr n pres aid c hn
  have hfrac : presence_frac_v2 c n = (c : ℚ) / (n : ℚ) := by
    unfold presence_frac_v2
    rw [if_pos (Nat.pos_iff_ne_zero.mp hn)]
  refine ⟨?_, hfrac, ?_, ?_, ?_⟩
  · unfold strong_attrs_v1
    rw [mem_stableSortBy, List.mem_map]
    constructor
    · rintro ⟨p, hp, hmap⟩
      rcases List.mem_filter.mp hp with ⟨hmem, hcond⟩
      simp only [Bool.and_eq_true, decide_eq_true_eq] at hcond
      have h1 : p.1 = aid := congrArg (fun q => q.1) hmap
      have h2 : p.2 = c := congrArg (fun q => q.2.1) hmap
      have hpair : p = (aid, c) := by
        cases p
        simp only [Prod.mk.injEq]
        exact ⟨h1, h2⟩
      constructor
      · rw [← hpair]; exact hmem
      · rw [← h2]; exact hcond.2
    · rintro ⟨hmem, hthr⟩
      refine ⟨(aid, c), List.mem_filter.mpr ⟨hmem, ?_⟩, rfl⟩
      simp only [Bool.and_eq_true, decide_eq_true_eq]
      exact ⟨hn, hthr⟩
  · unfold is_strong_v2
    rw [hfrac]
    simp
  · unfold is_strong_v2 presence_frac_v2
    norm_num
  · unfold is_strong_v2 presence_frac_v2
    norm_num

/-- C8 (witness): the concrete 2-of-3 scenario at threshold 0.6. -/
theorem presence_ratio_strong_iff_witness :
    (0 < 3) ∧
    ((("Color", 2, roundQ 3 ((2 : ℚ) / (3 : ℚ))) ∈
        strong_attrs_v1 (6 / 10) 3 [("Color", 2)]) ↔
      (("Color", 2) ∈ [("Color", (2 : Nat))] ∧ (6 / 10 : ℚ) ≤ (2 : ℚ) / (3 : ℚ))) := by
  exact ⟨by norm_num,
    (presence_ratio_strong_iff (6 / 10) 3 [("Color", 2)] "Color" 2 (by norm_num)).1⟩

/-- C9 (counterexample): kb_save sorts ascending on needs_review (False
before True), so the reviewed low-impact entry is persisted before the
unreviewed high-impact one, contradicting the claim that unreviewed entries
appear first. -/
theorem kb_save_order_counterexample :
    kb_save_rows kbC9 = [kbEntryRev, kbEntryUnrev] ∧
    kbEntryRev.needs_review = false ∧ kbEntryUnrev.needs_review = true ∧
    kbEntryRev.product_count = 1 ∧ kbEntryUnrev.product_count = 100 := by
  refine ⟨by decide, by decide, by decide, by decide, by decide⟩

/-- C9 (amended): kb_save emits the store entries sorted (stably) by the
ascending key (needs_review, -product_count): entries with needs_review =
false come first, and within an equal needs_review value entries are ordered
by product count descending; the output is a permutation of the stored
entries. -/
theorem kb_save_rows_sorted :
    ∀ kb : List (String × KBEntry),
      (kb_save_rows kb).Pairwise (fun a b => kbSaveLe a b = true) ∧
      (kb_save_rows kb).Perm (kb.map Prod.snd) ∧
      (∀ a b : KBEntry, kbSaveLe a b = true ↔
        ((a.needs_review = false ∧ b.needs_review = true) ∨
          (a.needs_review = b.needs_review ∧ b.product_count ≤ a.product_count))) := by
  have htr : ∀ a b c : KBEntry, kbSaveLe a b = true → kbSaveLe b c = true →
      kbSaveLe a c = true := by
    intro a b c hab hbc
    unfold kbSaveLe at *
    cases ha : a.needs_review <;> cases hb : b.needs_review <;>
      cases hc : c.needs_review <;> simp_all <;> omega
  have hto : ∀ a b : KBEntry, kbSaveLe a b = true ∨ kbSaveLe b a = true := by
    intro a b
    unfold kbSaveLe
    cases ha : a.needs_review <;> cases hb : b.needs_review <;> simp_all <;> omega
  intro kb
  refine ⟨pairwise_stableSortBy htr hto _, perm_stableSortBy _ _, ?_⟩
  intro a b
  unfold kbSaveLe
  cases ha : a.needs_review <;> cases hb : b.needs_review <;> simp_all

/-- C5 (counterexample): a Product node with no record-type tag at all is
accepted by _iter_products of core/dataset_understanding.py even though its
tag does not equal the golden-record designation, so acceptance is not
restricted to nodes whose tag equals the canonical value. -/
theorem golden_filter_counterexample :
    du_iter_accepts prodNoTag = true ∧
    prodNoTag.attr "UserTypeID" ≠ some goldenRecordTag := by
  exact ⟨by decide, by decide⟩

/-- C5 (amended): the scripts extractor accepts a node exactly when it is a
Product whose stripped record-type tag equals the golden-record designation;
the core extractor _iter_products also accepts Products whose record-type
tag is missing or empty, and rejects exactly the Products with a non-empty,
non-canonical tag; an element rejected by the scripts extractor contributes
to no aggregation counter. -/
theorem golden_record_filter :
    ∀ (e : XElem) (l1 l2 : List XElem),
      (du_iter_accepts e = true ↔
        (e.tag = "Product" ∧
          (e.attr "UserTypeID" = none ∨ e.attr "UserTypeID" = some "" ∨
            e.attr "UserTypeID" = some goldenRecordTag))) ∧
      (scripts_iter_accepts e = true ↔
        (e.tag = "Product" ∧ stripStr ((e.attr "UserTypeID").getD "") = goldenRecordTag)) ∧
      (scripts_iter_accepts e = false →
        buildCategoryAgg (l1 ++ e :: l2) = buildCategoryAgg (l1 ++ l2)) := by
  intro e l1 l2
  refine ⟨?_, ?_, ?_⟩
  · unfold du_iter_accepts
    cases hut : e.attr "UserTypeID" with
    | none => simp [hut]
    | some ut => by_cases hempty : ut = "" <;> simp [hut, hempty]
  · unfold scripts_iter_accepts
    simp
  · intro hrej
    unfold buildCategoryAgg scripts_iter_products
    rw [List.filter_append, List.filter_append, List.filter_cons_of_neg]
    simp [hrej]

/-- C5 (witness): a draft-tagged Product is rejected by the scripts
extractor and leaves the category counters of a one-product document
unchanged. -/
theorem golden_record_filter_witness :
    buildCategoryAgg ([prodGold] ++ prodDraft :: []) = buildCategoryAgg ([prodGold] ++ []) := by
  exact (golden_record_filter prodDraft [prodGold] []).2.2 (by decide)

theorem normWs_good (s : String) (h : normWs s ≠ "") :
    normWs s ≠ "" ∧ ∃ ch ∈ (normWs s).data, isWs ch = false := by
  refine ⟨h, ?_⟩
  have hdat : normWsL s.data ≠ [] := by
    intro hc
    apply h
    unfold normWs
    rw [hc]
  exact normWsL_has_nonws s.data hdat

theorem valuesAdd_good (m : List (String × List String)) (aid t : String)
    (hm : ∀ p ∈ m, ∀ x ∈ p.2, x ≠ "" ∧ ∃ ch ∈ x.data, isWs ch = false)
    (ht : t ≠ "" ∧ ∃ ch ∈ t.data, isWs ch = false) :
    ∀ p ∈ valuesAdd m aid t, ∀ x ∈ p.2, x ≠ "" ∧ ∃ ch ∈ x.data, isWs ch = false := by
  unfold valuesAdd
  by_cases hany : m.any (fun p => p.1 == aid)
  · rw [if_pos hany]
    intro p hp x hx
    rcases List.mem_map.mp hp with ⟨q, hq, hmap⟩
    by_cases hqk : q.1 == aid
    · rw [if_pos hqk] at hmap
      rw [← hmap] at hx
      rcases List.mem_append.mp hx with hx1 | hx1
      · exact hm q hq x hx1
      · rcases List.mem_singleton.mp hx1 with rfl
        exact ht
    · rw [if_neg hqk] at hmap
      rw [← hmap] at hx
      exact hm q hq x hx
  · rw [if_neg hany]
    intro p hp x hx
    rcases List.mem_append.mp hp with hp1 | hp1
    · exact hm p hp1 x hx
    · rcases List.mem_singleton.mp hp1 with rfl
      rcases List.mem_singleton.mp hx with rfl
      exact ht

theorem extractValuesStep_good (m : List (String × List String)) (v : XElem)
    (hm : ∀ p ∈ m, ∀ x ∈ p.2, x ≠ "" ∧ ∃ ch ∈ x.data, isWs ch = false) :
    ∀ p ∈ extractValuesStep m v, ∀ x ∈ p.2, x ≠ "" ∧ ∃ ch ∈ x.data, isWs ch = false := by
  unfold extractValuesStep
  by_cases htag : (v.tag == "Value" || v.tag == "MultiValue") = true
  · rw [if_pos htag]
    cases hattr : v.attr "AttributeID" with
    | none => exact hm
    | some aid =>
      by_cases haid : aid == ""
      · simp only [if_pos haid]
        exact hm
      · simp only [if_neg haid]
        by_cases hmulti : (v.tag == "MultiValue") = true
        · simp only [if_pos hmulti]
          refine foldl_invariant
            (fun acc => ∀ p ∈ acc, ∀ x ∈ p.2, x ≠ "" ∧ ∃ ch ∈ x.data, isWs ch = false)
            _ ?_ (v.findAll "Value") m hm
          intro acc sv hacc
          by_cases hemp : (normWs (sv.text.getD "") == "") = true
          · simpa only [if_pos hemp] using hacc
          · simp only [if_neg hemp]
            refine valuesAdd_good acc aid _ hacc (normWs_good _ ?_)
            simpa using hemp
        · simp only [if_neg hmulti]
          by_cases hemp : (normWs (v.text.getD "") == "") = true
          · simpa only [if_pos hemp] using hm
          · simp only [if_neg hemp]
            refine valuesAdd_good m aid _ hm (normWs_good _ ?_)
            simpa using hemp
  · rw [if_neg htag]
    exact hm

/-- C7: every value stored by the record extractors is non-empty and is not
whitespace-only: _extract_values of core/dataset_understanding.py never
stores an empty or all-whitespace string under any attribute id, and neither
does the values_map construction of extract_products_from_streams. -/
theorem extracted_values_nonempty :
    ∀ (e : XElem) (aid : String),
      (∀ (vs : List String) (v : String),
        (extract_values_du e).lookup aid = some vs → v ∈ vs →
          v ≠ "" ∧ ∃ ch ∈ v.data, isWs ch = false) ∧
      (∀ (ve : XElem) (vr : ValueRecord),
        (extract_products_values ve).lookup aid = some vr →
          vr.text ≠ "" ∧ ∃ ch ∈ vr.text.data, isWs ch = false) := by
  intro e aid
  constructor
  · intro vs v hlk hv
    have hgood : ∀ p ∈ extract_values_du e, ∀ x ∈ p.2,
        x ≠ "" ∧ ∃ ch ∈ x.data, isWs ch = false := by
      unfold extract_values_du
      cases hfc : e.findChild "Values" with
      | none => intro p hp; simp at hp
      | some vn =>
        exact foldl_invariant
          (fun acc => ∀ p ∈ acc, ∀ x ∈ p.2, x ≠ "" ∧ ∃ ch ∈ x.data, isWs ch = false)
          extractValuesStep (fun b a hb => extractValuesStep_good b a hb)
          vn.children [] (by intro p hp; simp at hp)
    exact hgood _ (lookup_mem hlk) v hv
  · intro ve vr hlk
    have hgood : ∀ p ∈ extract_products_values ve,
        p.2.text ≠ "" ∧ ∃ ch ∈ p.2.text.data, isWs ch = false := by
      unfold extract_products_values
      refine foldl_invariant
        (fun acc : List (String × ValueRecord) =>
          ∀ p ∈ acc, p.2.text ≠ "" ∧ ∃ ch ∈ p.2.text.data, isWs ch = false)
        _ ?_ _ [] (by intro p hp; simp at hp)
      intro m v hm
      by_cases hid : (stripStr ((v.attr "AttributeID").getD "") == "") = true
      · simpa only [if_pos hid] using hm
      · simp only [if_neg hid]
        by_cases hemp : (normWs (v.text.getD "") == "") = true
        · simpa only [if_pos hemp] using hm
        · simp only [if_neg hemp]
          intro p hp
          unfold vmapSet at hp
          by_cases hany : m.any (fun q => q.1 == stripStr ((v.attr "AttributeID").getD ""))
          · rw [if_pos hany] at hp
            rcases List.mem_map.mp hp with ⟨q, hq, hmap⟩
            by_cases hqk : q.1 == stripStr ((v.attr "AttributeID").getD "")
            · rw [if_pos hqk] at hmap
              rw [← hmap]
              exact normWs_good _ (by simpa using hemp)
            · rw [if_neg hqk] at hmap
              rw [← hmap]
              exact hm q hq
          · rw [if_neg hany] at hp
            rcases List.mem_append.mp hp with hp1 | hp1
            · exact hm p hp1
            · rcases List.mem_singleton.mp hp1 with rfl
              exact normWs_good _ (by simpa using hemp)
    exact hgood _ (lookup_mem hlk)

/-- C7 (witness): the mixed Values container of prodVals stores only the
normalized non-empty values. -/
theorem extracted_values_nonempty_witness :
    "rojo mate" ≠ "" ∧ ∃ ch ∈ ("rojo mate" : String).data, isWs ch = false := by
  exact (extracted_values_nonempty prodVals "A1").1 ["rojo mate"] "rojo mate"
    (by decide) (by decide)

theorem filter_length_le {α : Type} (p q : α → Bool)
    (hpq : ∀ x, q x = true → p x = true) :
    ∀ l : List α, (l.filter q).length ≤ (l.filter p).length := by
  intro l
  induction l with
  | nil => simp
  | cons a tl ih =>
    cases hq : q a with
    | true =>
      rw [List.filter_cons_of_pos hq, List.filter_cons_of_pos (hpq a hq)]
      simpa using ih
    | false =>
      rw [List.filter_cons_of_neg (by simp [hq])]
      cases hp : p a with
      | true =>
        rw [List.filter_cons_of_pos hp]
        exact le_trans ih (by simp)
      | false =>
        rw [List.filter_cons_of_neg (by simp [hp])]
        exact ih

theorem filter_length_lt {α : Type} (p q : α → Bool)
    (hpq : ∀ x, q x = true → p x = true) (c : α) :
    ∀ l : List α, c ∈ l → p c = true → q c = false →
      (l.filter q).length < (l.filter p).length := by
  intro l
  induction l with
  | nil => intro hc; simp at hc
  | cons a tl ih =>
    intro hc hp hq
    rcases List.mem_cons.mp hc with rfl | hc'
    · rw [List.filter_cons_of_pos hp, List.filter_cons_of_neg (by simp [hq])]
      exact Nat.lt_succ_of_le (filter_length_le p q hpq tl)
    · cases hqa : q a with
      | true =>
        rw [List.filter_cons_of_pos hqa, List.filter_cons_of_pos (hpq a hqa)]
        simpa using ih hc' hp hq
      | false =>
        rw [List.filter_cons_of_neg (by simp [hqa])]
        cases hpa : p a with
        | true =>
          rw [List.filter_cons_of_pos hpa]
          exact Nat.lt_succ_of_le (le_of_lt (ih hc' hp hq))
        | false =>
          rw [List.filter_cons_of_neg (by simp [hpa])]
          exact ih hc' hp hq

theorem lookup_isSome_mem {β : Type} :
    ∀ (l : List (String × β)) (k : String),
      (l.lookup k).isSome = true → k ∈ l.map Prod.fst := by
  intro l
  induction l with
  | nil => intro k hk; simp [List.lookup] at hk
  | cons p tl ih =>
    intro k hk
    cases hbeq : (k == p.1) with
    | true =>
      have : k = p.1 := by simpa using hbeq
      simp [this]
    | false =>
      simp only [List.lookup, hbeq] at hk
      simpa using Or.inr (ih k hk)

theorem notSeen_decrease (h : List (String × HNode)) (c : String)
    (seen : List String) (hc : (h.lookup c).isSome = true)
    (hs : seen.contains c = false) :
    notSeenKeys h (c :: seen) < notSeenKeys h seen := by
  unfold notSeenKeys
  refine filter_length_lt _ _ ?_ c (h.map Prod.fst) (lookup_isSome_mem h c hc) ?_ ?_
  · intro x hx
    simp only [Bool.not_eq_true'] at hx ⊢
    simp only [List.contains_cons, Bool.or_eq_false_iff] at hx
    exact hx.2
  · simpa using hs
  · simp

theorem pathWalk_isSome (h : List (String × HNode)) :
    ∀ (fuel : Nat) (cur : Option String) (seen parts : List String),
      notSeenKeys h seen < fuel →
      ∃ r, pathWalk h fuel cur seen parts = some r := by
  intro fuel
  induction fuel with
  | zero => intro cur seen parts hlt; exact absurd hlt (Nat.not_lt_zero _)
  | succ fuel ih =>
    intro cur seen parts hlt
    cases cur with
    | none => exact ⟨(parts, seen), by simp [pathWalk]⟩
    | some c =>
      by_cases hce : (c == "") = true
      · exact ⟨(parts, seen), by simp [pathWalk, hce]⟩
      · have hc' : ¬(c = "") := by simpa using hce
        by_cases hseen : c ∈ seen
        · exact ⟨(parts, seen), by simp [pathWalk, hc', hseen]⟩
        · cases hlc : h.lookup c with
          | none => exact ⟨(parts, seen), by simp [pathWalk, hc', hseen, hlc]⟩
          | some nd =>
            have hcont : seen.contains c = false := by simpa using hseen
            have hdec : notSeenKeys h (c :: seen) < fuel := by
              have := notSeen_decrease h c seen (by rw [hlc]; rfl) hcont
              omega
            obtain ⟨r, hr⟩ := ih (nextCur h nd) (c :: seen)
              (parts ++ [if nd.name == "" then nd.node_id else nd.name]) hdec
            refine ⟨r, ?_⟩
            simpa [pathWalk, hc', hseen, hlc] using hr

theorem pathWalk_visited (h : List (String × HNode)) :
    ∀ (fuel : Nat) (cur : Option String) (seen parts : List String)
      (r : List String × List String),
      pathWalk h fuel cur seen parts = some r → seen.Nodup →
      (∀ k ∈ seen, (h.lookup k).isSome = true) →
      r.2.Nodup ∧ (∀ k ∈ r.2, (h.lookup k).isSome = true) := by
  intro fuel
  induction fuel with
  | zero =>
    intro cur seen parts r hr hnd hkeys
    obtain ⟨r1, r2⟩ := r
    cases hw : walkCond h cur seen with
    | true => simp [pathWalk, hw] at hr
    | false =>
      simp [pathWalk, hw] at hr
      obtain ⟨rfl, rfl⟩ := hr
      exact ⟨hnd, hkeys⟩
  | succ fuel ih =>
    intro cur seen parts r hr hnd hkeys
    obtain ⟨r1, r2⟩ := r
    cases cur with
    | none =>
      simp [pathWalk] at hr
      obtain ⟨rfl, rfl⟩ := hr
      exact ⟨hnd, hkeys⟩
    | some c =>
      by_cases hce : (c == "") = true
      · simp [pathWalk, hce] at hr
        obtain ⟨rfl, rfl⟩ := hr
        exact ⟨hnd, hkeys⟩
      · have hc' : ¬(c = "") := by simpa using hce
        by_cases hseen : c ∈ seen
        · simp [pathWalk, hc', hseen] at hr
          obtain ⟨rfl, rfl⟩ := hr
          exact ⟨hnd, hkeys⟩
        · cases hlc : h.lookup c with
          | none =>
            simp [pathWalk, hc', hseen, hlc] at hr
            obtain ⟨rfl, rfl⟩ := hr
            exact ⟨hnd, hkeys⟩
          | some nd =>
            have hrec : pathWalk h fuel (nextCur h nd) (c :: seen)
                (parts ++ [if nd.name == "" then nd.node_id else nd.name]) =
                  some (r1, r2) := by
              simpa [pathWalk, hc', hseen, hlc] using hr
            refine ih (nextCur h nd) (c :: seen)
              (parts ++ [if nd.name == "" then nd.node_id else nd.name])
              (r1, r2) hrec ?_ ?_
            · exact List.nodup_cons.mpr ⟨hseen, hnd⟩
            · intro k hk
              rcases List.mem_cons.mp hk with rfl | hk'
              · rw [hlc]; rfl
              · exact hkeys k hk'

theorem pathWalk_fuel_stable (h : List (String × HNode)) :
    ∀ (f g : Nat) (cur : Option String) (seen parts : List String),
      notSeenKeys h seen < f → notSeenKeys h seen < g →
      pathWalk h f cur seen parts = pathWalk h g cur seen parts := by
  intro f
  induction f with
  | zero => intro g cur seen parts hf; exact absurd hf (Nat.not_lt_zero _)
  | succ f ih =>
    intro g cur seen parts hf hg
    cases g with
    | zero => exact absurd hg (Nat.not_lt_zero _)
    | succ g =>
      cases cur with
      | none => simp [pathWalk]
      | some c =>
      by_cases hce : (c == "") = true
      · simp [pathWalk, hce]
      · have hc' : ¬(c = "") := by simpa using hce
        by_cases hseen : c ∈ seen
        · simp [pathWalk, hc', hseen]
        · cases hlc : h.lookup c with
          | none => simp [pathWalk, hc', hseen, hlc]
          | some nd =>
            have hcont : seen.contains c = false := by simpa using hseen
            have hdec := notSeen_decrease h c seen (by rw [hlc]; rfl) hcont
            have hrec := ih g (nextCur h nd) (c :: seen)
              (parts ++ [if nd.name == "" then nd.node_id else nd.name])
              (by omega) (by omega)
            rw [show pathWalk h (f + 1) (some c) seen parts =
                pathWalk h f (nextCur h nd) (c :: seen)
                  (parts ++ [if nd.name == "" then nd.node_id else nd.name]) from by
              simp [pathWalk, hc', hseen, hlc]]
            rw [show pathWalk h (g + 1) (some c) seen parts =
                pathWalk h g (nextCur h nd) (c :: seen)
                  (parts ++ [if nd.name == "" then nd.node_id else nd.name]) from by
              simp [pathWalk, hc', hseen, hlc]]
            exact hrec

/-- C6: the upward walk of path resolution terminates within a number of
steps bounded by the hierarchy size even on cyclic parent chains: with fuel
hierarchy-length + 1 the walk completes, every visited node id is visited at
most once (the visited set is duplicate-free and contains only resolvable
ids), and any extra fuel yields the identical result; on the concrete
two-node cycle the breadcrumb uses exactly the names collected before the
cycle closed. -/
theorem path_resolution_terminates :
    ∀ (h : List (String × HNode)) (nodeId : String),
      (∃ parts seen,
        pathWalk h (h.length + 1) (some nodeId) [] [] = some (parts, seen) ∧
        seen.Nodup ∧ (∀ k ∈ seen, (h.lookup k).isSome = true) ∧
        (∀ m, pathWalk h (h.length + 1 + m) (some nodeId) [] [] = some (parts, seen))) ∧
      path_for hierCyc "A" = "Beta > Alpha" := by
  intro h nodeId
  constructor
  · have hbound : notSeenKeys h [] < h.length + 1 := by
      unfold notSeenKeys
      have hle := List.length_filter_le
        (fun k => !(([] : List String).contains k)) (h.map Prod.fst)
      simp only [List.length_map] at hle
      omega
    obtain ⟨⟨parts, seen⟩, hr⟩ :=
      pathWalk_isSome h (h.length + 1) (some nodeId) [] [] hbound
    obtain ⟨hnd, hkeys⟩ := pathWalk_visited h _ _ _ _ _ hr (by simp) (by simp)
    refine ⟨parts, seen, hr, hnd, hkeys, ?_⟩
    intro m
    rw [pathWalk_fuel_stable h (h.length + 1 + m) (h.length + 1) (some nodeId) [] []
      (by omega) hbound]
    exact hr
  · decide

/-- C6 (witness): the termination bundle evaluated on the concrete cyclic
hierarchy. -/
theorem path_resolution_terminates_witness :
    (∃ parts seen,
      pathWalk hierCyc (hierCyc.length + 1) (some "A") [] [] = some (parts, seen) ∧
      seen.Nodup ∧ (∀ k ∈ seen, (hierCyc.lookup k).isSome = true) ∧
      (∀ m, pathWalk hierCyc (hierCyc.length + 1 + m) (some "A") [] [] = some (parts, seen))) ∧
    path_for hierCyc "A" = "Beta > Alpha" :=
  path_resolution_terminates hierCyc "A"

theorem localeConfidence_bounds (w l t : Nat) (hlt : l < w) :
    55 / 100 ≤ localeConfidence w l t ∧ localeConfidence w l t ≤ 95 / 100 := by
  unfold localeConfidence roundQ
  set q : ℚ := min (95 / 100 : ℚ)
    (((w : ℚ) - (l : ℚ)) / (max 1 t : ℚ) * 10 + 55 / 100) with hq
  have hd : (1 : ℚ) ≤ (w : ℚ) - (l : ℚ) := by
    have : (l : ℚ) + 1 ≤ (w : ℚ) := by exact_mod_cast hlt
    linarith
  have hm : (1 : ℚ) ≤ (max 1 t : ℚ) := by exact_mod_cast le_max_left 1 t
  have harg : (55 / 100 : ℚ) ≤ ((w : ℚ) - (l : ℚ)) / (max 1 t : ℚ) * 10 + 55 / 100 := by
    have hpos : (0 : ℚ) ≤ ((w : ℚ) - (l : ℚ)) / (max 1 t : ℚ) :=
      div_nonneg (by linarith) (by linarith)
    linarith
  have hql : (55 / 100 : ℚ) ≤ q := le_min (by norm_num) harg
  have hqu : q ≤ 95 / 100 := min_le_left _ _
  have hfl : (55 : ℤ) ≤ round (q * (10 : ℚ) ^ 2) := by
    rw [round_eq]
    have h1 : ((55 : ℚ) + 1 / 2) ≤ q * (10 : ℚ) ^ 2 + 1 / 2 := by nlinarith
    calc (55 : ℤ) = ⌊(55 : ℚ) + 1 / 2⌋ := by norm_num
      _ ≤ ⌊q * (10 : ℚ) ^ 2 + 1 / 2⌋ := Int.floor_mono h1
  have hfu : round (q * (10 : ℚ) ^ 2) ≤ 95 := by
    rw [round_eq]
    have h1 : q * (10 : ℚ) ^ 2 + 1 / 2 ≤ (95 : ℚ) + 1 / 2 := by nlinarith
    calc ⌊q * (10 : ℚ) ^ 2 + 1 / 2⌋ ≤ ⌊(95 : ℚ) + 1 / 2⌋ := Int.floor_mono h1
      _ = 95 := by norm_num
  constructor
  · rw [div_le_div_iff (by norm_num) (by positivity)]
    calc (55 : ℚ) * (10 : ℚ) ^ 2 = 5500 := by norm_num
      _ ≤ (round (q * (10 : ℚ) ^ 2) : ℚ) * 100 := by
        have : (55 : ℚ) ≤ (round (q * (10 : ℚ) ^ 2) : ℚ) := by exact_mod_cast hfl
        nlinarith
  · rw [div_le_div_iff (by positivity) (by norm_num)]
    have : ((round (q * (10 : ℚ) ^ 2) : ℤ) : ℚ) ≤ 95 := by exact_mod_cast hfu
    nlinarith

/-- C10: detect_locale returns the undetermined locale with confidence 0 on
an empty sample list and on samples without any alphabetic token; when
tokens exist but the Spanish and English marker scores tie, it returns the
undetermined locale with confidence 0.3; and whenever it returns a
determined locale the confidence lies between 0.55 and 0.95 inclusive. -/
theorem detect_locale_bounds :
    ∀ samples : List String,
      detect_locale [] = ⟨"und", 0, "no_text_samples"⟩ ∧
      ((∀ s ∈ samples, tokensUp s = []) →
        (detect_locale samples).locale = "und" ∧
          (detect_locale samples).confidence = 0) ∧
      (localeTotalTokens samples ≠ 0 →
        localeScore esMarkers samples = localeScore enMarkers samples →
        detect_locale samples = ⟨"und", 3 / 10, "scores"⟩) ∧
      ((detect_locale samples).locale = "es-MX" ∨
          (detect_locale samples).locale = "en-US" →
        55 / 100 ≤ (detect_locale samples).confidence ∧
          (detect_locale samples).confidence ≤ 95 / 100) := by
  intro samples
  refine ⟨rfl, ?_, ?_, ?_⟩
  · intro hall
    have htot : localeTotalTokens samples = 0 := by
      unfold localeTotalTokens
      apply List.sum_eq_zero
      intro x hx
      rcases List.mem_map.mp hx with ⟨s, hs, rfl⟩
      rw [hall s (List.mem_of_mem_take hs)]
      rfl
    unfold detect_locale
    by_cases hemp : samples.isEmpty
    · rw [if_pos hemp]; exact ⟨rfl, rfl⟩
    · rw [if_neg hemp, if_pos (by simpa using htot)]
      exact ⟨rfl, rfl⟩
  · intro htot heq
    unfold detect_locale
    have hemp : ¬samples.isEmpty := by
      intro hc
      apply htot
      rcases List.isEmpty_iff.mp hc with rfl
      rfl
    rw [if_neg hemp, if_neg (by simpa using htot), if_neg (by omega), if_neg (by omega)]
  · intro hdet
    unfold detect_locale at hdet ⊢
    by_cases hemp : samples.isEmpty
    · rw [if_pos hemp] at hdet
      rcases hdet with hdet | hdet <;> simp at hdet
    · rw [if_neg hemp] at hdet ⊢
      by_cases htot : (localeTotalTokens samples == 0) = true
      · rw [if_pos htot] at hdet
        rcases hdet with hdet | hdet <;> simp at hdet
      · rw [if_neg htot] at hdet ⊢
        by_cases hes : localeScore enMarkers samples < localeScore esMarkers samples
        · rw [if_pos hes]
          exact localeConfidence_bounds _ _ _ hes
        · rw [if_neg hes] at hdet ⊢
          by_cases hen : localeScore esMarkers samples < localeScore enMarkers samples
          · rw [if_pos hen]
            exact localeConfidence_bounds _ _ _ hen
          · rw [if_neg hen] at hdet
            rcases hdet with hdet | hdet <;> simp at hdet

/-- C10 (witness): a sample made of Spanish function words detects es-MX
with confidence 0.95, inside the stated bounds. -/
theorem detect_locale_bounds_witness :
    55 / 100 ≤ (detect_locale ["el la de para con"]).confidence ∧
      (detect_locale ["el la de para con"]).confidence ≤ 95 / 100 := by
  have hloc : (detect_locale ["el la de para con"]).locale = "es-MX" := by
    have h1 : ¬(["el la de para con"].isEmpty = true) := by decide
    have h2 : ¬((localeTotalTokens ["el la de para con"] == 0) = true) := by decide
    have h3 : localeScore enMarkers ["el la de para con"] <
        localeScore esMarkers ["el la de para con"] := by decide
    unfold detect_locale
    rw [if_neg h1, if_neg h2, if_pos h3]
  exact (detect_locale_bounds ["el la de para con"]).2.2.2 (Or.inl hloc)

theorem lookup_some_any {β : Type} {kb : List (String × β)} {k : String} {v : β}
    (h : kb.lookup k = some v) : kb.any (fun p => p.1 == k) = true := by
  exact List.any_eq_true.mpr ⟨(k, v), lookup_mem h, beq_self_eq_true k⟩

theorem any_false_lookup_none {β : Type} {kb : List (String × β)} {k : String}
    (h : kb.any (fun p => p.1 == k) = false) : kb.lookup k = none := by
  induction kb with
  | nil => rfl
  | cons p tl ih =>
    rw [List.any_cons] at h
    rcases Bool.or_eq_false_iff.mp h with ⟨h1, h2⟩
    have hk : (k == p.1) = false := by
      cases hkk : (k == p.1) with
      | false => rfl
      | true =>
        have : k = p.1 := by simpa using hkk
        rw [this] at h1
        simp at h1
    simp only [List.lookup, hk]
    exact ih h2

theorem lookup_map_set {kb : List (String × KBEntry)} {k : String} {e : KBEntry}
    (hany : kb.any (fun p => p.1 == k) = true) :
    (kb.map (fun p => if p.1 == k then (p.1, e) else p)).lookup k = some e := by
  induction kb with
  | nil => simp at hany
  | cons p tl ih =>
    rw [List.any_cons] at hany
    cases hp : (p.1 == k) with
    | true =>
      have hpk : p.1 = k := by simpa using hp
      have hite : (if p.1 == k then (p.1, e) else p) = (p.1, e) := if_pos hp
      rw [List.map_cons, hite, hpk]
      simp [List.lookup]
    | false =>
      have htl : tl.any (fun p => p.1 == k) = true := by
        rcases Bool.or_eq_true_iff.mp hany with h1 | h1
        · rw [hp] at h1; cases h1
        · exact h1
      have hk : (k == p.1) = false := by
        cases hkk : (k == p.1) with
        | false => rfl
        | true =>
          have : k = p.1 := by simpa using hkk
          rw [← this] at hp
          simp at hp
      have hite : (if p.1 == k then (p.1, e) else p) = p := if_neg (by simp [hp])
      rw [List.map_cons, hite]
      simp only [List.lookup, hk]
      exact ih htl

theorem kbSet_lookup_self (kb : List (String × KBEntry)) (k : String) (e : KBEntry) :
    (kbSet kb k e).lookup k = some e := by
  unfold kbSet
  by_cases hany : kb.any (fun p => p.1 == k) = true
  · rw [if_pos hany]
    exact lookup_map_set hany
  · rw [if_neg hany]
    rw [lookup_append_none (any_false_lookup_none (Bool.not_eq_true _ ▸ (by simpa using hany)))]
    simp [List.lookup]

theorem kbSet_lookup_ne (kb : List (String × KBEntry)) (k : String) (e : KBEntry)
    (k' : String) (hne : k' ≠ k) : (kbSet kb k e).lookup k' = kb.lookup k' := by
  unfold kbSet
  by_cases hany : kb.any (fun p => p.1 == k) = true
  · rw [if_pos hany]
    clear hany
    induction kb with
    | nil => rfl
    | cons p tl ih =>
      by_cases hp : p.1 = k
      · have hite : (if p.1 == k then (p.1, e) else p) = (p.1, e) :=
          if_pos (by simp [hp])
        have hk'' : (k' == p.1) = false := by
          cases hkk : (k' == p.1) with
          | false => rfl
          | true => exact absurd ((show k' = p.1 by simpa using hkk).trans hp) hne
        rw [List.map_cons, hite]
        simp only [List.lookup, hk'']
        exact ih
      · have hite : (if p.1 == k then (p.1, e) else p) = p :=
          if_neg (by simp [hp])
        rw [List.map_cons, hite]
        simp only [List.lookup]
        cases hkk : (k' == p.1) with
        | true => rfl
        | false => exact ih
  · rw [if_neg hany]
    cases hl : kb.lookup k' with
    | some v => exact lookup_append_some hl
    | none =>
      rw [lookup_append_none hl]
      have hne' : (k' == k) = false := by
        cases hkk : (k' == k) with
        | false => rfl
        | true => exact absurd (by simpa using hkk) hne
      simp [List.lookup, hne']

theorem kbSet_eq_self {kb : List (String × KBEntry)} {k : String} {e : KBEntry}
    (hmem : kb.lookup k = some e)
    (hall : ∀ p ∈ kb, p.1 = k → p = (k, e)) : kbSet kb k e = kb := by
  unfold kbSet
  rw [if_pos (lookup_some_any hmem)]
  have : ∀ p ∈ kb, (if p.1 == k then (p.1, e) else p) = p := by
    intro p hp
    by_cases hpk : (p.1 == k) = true
    · rw [if_pos hpk]
      have h1 : p.1 = k := by simpa using hpk
      rw [hall p hp h1]
    · rw [if_neg hpk]
  calc kb.map (fun p => if p.1 == k then (p.1, e) else p)
      = kb.map id := List.map_congr_left this
    _ = kb := List.map_id kb

theorem kb_merge_disjoint :
    ∀ (cats : List CatRow) (kb : List (String × KBEntry)) (loc : String),
      (∀ c ∈ cats, kb.lookup c.category_key = none) →
      (cats.map (fun c => c.category_key)).Nodup →
      kb_merge_categories kb cats loc =
        (kb ++ cats.map (fun c => (c.category_key, kbFreshEntry loc c)),
          ⟨cats.length, 0⟩) := by
  intro cats
  induction cats with
  | nil => intro kb loc h hnd; simp [kb_merge_categories]
  | cons c rest ih =>
    intro kb loc h hnd
    have hc : kb.lookup c.category_key = none := h c (List.mem_cons_self _ _)
    have hnd' : (∀ x ∈ rest, ¬x.category_key = c.category_key) ∧
        (rest.map (fun c => c.category_key)).Nodup := by simpa using hnd
    obtain ⟨hhead, htail⟩ := hnd'
    have hrest : ∀ c' ∈ rest,
        (kb ++ [(c.category_key, kbFreshEntry loc c)]).lookup c'.category_key = none := by
      intro c' hc'
      rw [lookup_append_none (h c' (List.mem_cons_of_mem _ hc'))]
      have hne : (c'.category_key == c.category_key) = false := by
        cases hkk : (c'.category_key == c.category_key) with
        | false => rfl
        | true => exact absurd (by simpa using hkk) (hhead c' hc')
      simp [List.lookup, hne]
    have hstep := ih (kb ++ [(c.category_key, kbFreshEntry loc c)]) loc hrest htail
    simp only [kb_merge_categories, hc, hstep]
    simp [List.append_assoc]

theorem kb_merge_same :
    ∀ (cats : List CatRow) (kb : List (String × KBEntry)) (loc : String),
      (∀ c ∈ cats, kb.lookup c.category_key = some (kbFreshEntry loc c)) →
      (∀ c ∈ cats, ∀ p ∈ kb, p.1 = c.category_key →
        p = (c.category_key, kbFreshEntry loc c)) →
      kb_merge_categories kb cats loc = (kb, ⟨0, cats.length⟩) := by
  intro cats
  induction cats with
  | nil => intro kb loc h hall; simp [kb_merge_categories]
  | cons c rest ih =>
    intro kb loc h hall
    have hc := h c (List.mem_cons_self _ _)
    have hupd : kbUpdateEntry loc c (kbFreshEntry loc c) = kbFreshEntry loc c := by
      unfold kbUpdateEntry kbFreshEntry
      simp [ite_self]
    have hset : kbSet kb c.category_key
        (kbUpdateEntry loc c (kbFreshEntry loc c)) = kb := by
      rw [hupd]
      exact kbSet_eq_self hc (hall c (List.mem_cons_self _ _))
    have hstep := ih kb loc
      (fun c' hc' => h c' (List.mem_cons_of_mem _ hc'))
      (fun c' hc' => hall c' (List.mem_cons_of_mem _ hc'))
    simp only [kb_merge_categories, hc, hset, hstep]
    simp

theorem lookup_fresh_map :
    ∀ (cats : List CatRow) (loc : String) (c : CatRow), c ∈ cats →
      (cats.map (fun c => c.category_key)).Nodup →
      (cats.map (fun c => (c.category_key, kbFreshEntry loc c))).lookup c.category_key =
        some (kbFreshEntry loc c) := by
  intro cats
  induction cats with
  | nil => intro loc c hc; simp at hc
  | cons d rest ih =>
    intro loc c hc hnd
    have hnd' : (∀ x ∈ rest, ¬x.category_key = d.category_key) ∧
        (rest.map (fun c => c.category_key)).Nodup := by simpa using hnd
    rcases List.mem_cons.mp hc with rfl | hc'
    · simp [List.lookup]
    · have hne : (c.category_key == d.category_key) = false := by
        cases hkk : (c.category_key == d.category_key) with
        | false => rfl
        | true => exact absurd (by simpa using hkk) (hnd'.1 c hc')
      rw [List.map_cons]
      simp only [List.lookup, hne]
      exact ih loc c hc' hnd'.2

/-- C3 (counterexample): merging a list carrying the same category key twice
into an empty store reports categories_updated = 1, not 0, because the
second occurrence updates the entry the first occurrence inserted. -/
theorem kb_merge_dup_counterexample :
    (kb_merge_categories [] catsDup "es-MX").2.categories_updated = 1 ∧
    (kb_merge_categories [] catsDup "es-MX").2.new_categories_added = 1 := by
  exact ⟨by decide, by decide⟩

/-- C3 (amended): for an input list whose category keys are distinct, the
merge into an empty store inserts one entry per key reporting (length, 0),
the resulting key list is exactly the input keys with no duplicates, and
re-merging the identical list reports (0, length) and leaves the store
completely unchanged. -/
theorem kb_merge_idempotent :
    ∀ (cats : List CatRow) (loc : String),
      (cats.map (fun c => c.category_key)).Nodup →
      (kb_merge_categories [] cats loc).2 = ⟨cats.length, 0⟩ ∧
      (kb_merge_categories [] cats loc).1.map Prod.fst =
        cats.map (fun c => c.category_key) ∧
      ((kb_merge_categories [] cats loc).1.map Prod.fst).Nodup ∧
      (kb_merge_categories (kb_merge_categories [] cats loc).1 cats loc).2 =
        ⟨0, cats.length⟩ ∧
      (kb_merge_categories (kb_merge_categories [] cats loc).1 cats loc).1 =
        (kb_merge_categories [] cats loc).1 := by
  intro cats loc hnd
  have h1 := kb_merge_disjoint cats [] loc (by intro c hc; rfl) hnd
  have hkb1 : (kb_merge_categories [] cats loc).1 =
      cats.map (fun c => (c.category_key, kbFreshEntry loc c)) := by
    rw [h1]
    simp
  have hkeys : (kb_merge_categories [] cats loc).1.map Prod.fst =
      cats.map (fun c => c.category_key) := by
    rw [hkb1, List.map_map]
    rfl
  have hinj : ∀ x ∈ cats, ∀ y ∈ cats, x.category_key = y.category_key → x = y :=
    List.inj_on_of_nodup_map hnd
  have hlook : ∀ c ∈ cats, (kb_merge_categories [] cats loc).1.lookup c.category_key =
      some (kbFreshEntry loc c) := by
    intro c hc
    rw [hkb1]
    exact lookup_fresh_map cats loc c hc hnd
  have hall : ∀ c ∈ cats, ∀ p ∈ (kb_merge_categories [] cats loc).1,
      p.1 = c.category_key → p = (c.category_key, kbFreshEntry loc c) := by
    intro c hc p hp hkey
    rw [hkb1] at hp
    rcases List.mem_map.mp hp with ⟨d, hd, rfl⟩
    have : d = c := hinj d hd c hc (by simpa using hkey)
    rw [this]
  have h2 := kb_merge_same cats (kb_merge_categories [] cats loc).1 loc hlook hall
  refine ⟨by rw [h1], hkeys, ?_, by rw [h2], by rw [h2]⟩
  rw [hkeys]
  exact hnd

/-- C3 (witness): the two-category scenario, merged twice. -/
theorem kb_merge_idempotent_witness :
    (kb_merge_categories [] catsTwo "es-MX").2 = ⟨2, 0⟩ ∧
    (kb_merge_categories [] catsTwo "es-MX").1.map Prod.fst =
      catsTwo.map (fun c => c.category_key) ∧
    ((kb_merge_categories [] catsTwo "es-MX").1.map Prod.fst).Nodup ∧
    (kb_merge_categories (kb_merge_categories [] catsTwo "es-MX").1 catsTwo "es-MX").2 =
      ⟨0, 2⟩ ∧
    (kb_merge_categories (kb_merge_categories [] catsTwo "es-MX").1 catsTwo "es-MX").1 =
      (kb_merge_categories [] catsTwo "es-MX").1 := by
  have h := kb_merge_idempotent catsTwo "es-MX" (by decide)
  exact ⟨h.1, h.2.1, h.2.2.1, h.2.2.2.1, h.2.2.2.2⟩

theorem kb_merge_flag_mono :
    ∀ (cats : List CatRow) (kb : List (String × KBEntry)) (loc : String)
      (k : String) (e : KBEntry),
      kb.lookup k = some e → e.needs_review = true →
      ∃ e', (kb_merge_categories kb cats loc).1.lookup k = some e' ∧
        e'.needs_review = true := by
  intro cats
  induction cats with
  | nil => intro kb loc k e hk hrev; exact ⟨e, by simpa [kb_merge_categories] using hk, hrev⟩
  | cons c rest ih =>
    intro kb loc k e hk hrev
    cases hm : kb.lookup c.category_key with
    | none =>
      have hne : c.category_key ≠ k := by
        intro hcc
        rw [hcc, hk] at hm
        cases hm
      have hk' : (kb ++ [(c.category_key, kbFreshEntry loc c)]).lookup k = some e :=
        lookup_append_some hk
      have := ih (kb ++ [(c.category_key, kbFreshEntry loc c)]) loc k e hk' hrev
      simpa [kb_merge_categories, hm] using this
    | some e2 =>
      by_cases hkc : k = c.category_key
      · have he2 : e2 = e := by
          rw [hkc] at hk
          rw [hk] at hm
          exact (Option.some_injective _ hm).symm
        have hupd : (kbUpdateEntry loc c e2).needs_review = true := by
          unfold kbUpdateEntry
          rw [he2]
          exact hrev
        have hk' : (kbSet kb c.category_key (kbUpdateEntry loc c e2)).lookup k =
            some (kbUpdateEntry loc c e2) := by
          rw [hkc]
          exact kbSet_lookup_self kb c.category_key (kbUpdateEntry loc c e2)
        have := ih (kbSet kb c.category_key (kbUpdateEntry loc c e2)) loc k
          (kbUpdateEntry loc c e2) hk' hupd
        simpa [kb_merge_categories, hm] using this
      · have hk' : (kbSet kb c.category_key (kbUpdateEntry loc c e2)).lookup k = some e := by
          rw [kbSet_lookup_ne kb c.category_key (kbUpdateEntry loc c e2) k hkc]
          exact hk
        have := ih (kbSet kb c.category_key (kbUpdateEntry loc c e2)) loc k e hk' hrev
        simpa [kb_merge_categories, hm] using this

theorem kb_merge_key_isSome :
    ∀ (cats : List CatRow) (kb : List (String × KBEntry)) (loc : String) (k : String),
      (kb.lookup k).isSome = true →
      ((kb_merge_categories kb cats loc).1.lookup k).isSome = true := by
  intro cats
  induction cats with
  | nil => intro kb loc k hk; simpa [kb_merge_categories] using hk
  | cons c rest ih =>
    intro kb loc k hk
    cases hm : kb.lookup c.category_key with
    | none =>
      cases hl : kb.lookup k with
      | none => rw [hl] at hk; cases hk
      | some v =>
        have hk' : ((kb ++ [(c.category_key, kbFreshEntry loc c)]).lookup k).isSome := by
          rw [lookup_append_some hl]; rfl
        simpa [kb_merge_categories, hm] using
          ih (kb ++ [(c.category_key, kbFreshEntry loc c)]) loc k hk'
    | some e2 =>
      by_cases hkc : k = c.category_key
      · have hk' : ((kbSet kb c.category_key (kbUpdateEntry loc c e2)).lookup k).isSome := by
          rw [hkc, kbSet_lookup_self]; rfl
        simpa [kb_merge_categories, hm] using
          ih (kbSet kb c.category_key (kbUpdateEntry loc c e2)) loc k hk'
      · have hk' : ((kbSet kb c.category_key (kbUpdateEntry loc c e2)).lookup k).isSome := by
          rw [kbSet_lookup_ne kb c.category_key (kbUpdateEntry loc c e2) k hkc]
          exact hk
        simpa [kb_merge_categories, hm] using
          ih (kbSet kb c.category_key (kbUpdateEntry loc c e2)) loc k hk'

theorem kb_merge_adds_key :
    ∀ (cats : List CatRow) (kb : List (String × KBEntry)) (loc : String) (c : CatRow),
      c ∈ cats →
      ((kb_merge_categories kb cats loc).1.lookup c.category_key).isSome = true := by
  intro cats
  induction cats with
  | nil => intro kb loc c hc; simp at hc
  | cons d rest ih =>
    intro kb loc c hc
    rcases List.mem_cons.mp hc with rfl | hc'
    · cases hm : kb.lookup c.category_key with
      | none =>
        have hk' : ((kb ++ [(c.category_key, kbFreshEntry loc c)]).lookup
            c.category_key).isSome = true := by
          rw [lookup_append_none hm]
          simp [List.lookup]
        simpa [kb_merge_categories, hm] using
          kb_merge_key_isSome rest (kb ++ [(c.category_key, kbFreshEntry loc c)]) loc
            c.category_key hk'
      | some e2 =>
        have hk' : ((kbSet kb c.category_key (kbUpdateEntry loc c e2)).lookup
            c.category_key).isSome = true := by
          rw [kbSet_lookup_self]; rfl
        simpa [kb_merge_categories, hm] using
          kb_merge_key_isSome rest (kbSet kb c.category_key (kbUpdateEntry loc c e2)) loc
            c.category_key hk'
    · cases hm : kb.lookup d.category_key with
      | none =>
        simpa [kb_merge_categories, hm] using
          ih (kb ++ [(d.category_key, kbFreshEntry loc d)]) loc c hc'
      | some e2 =>
        simpa [kb_merge_categories, hm] using
          ih (kbSet kb d.category_key (kbUpdateEntry loc d e2)) loc c hc'

theorem postCheck_flag_mono :
    ∀ (cats : List CatRow) (kb : List (String × KBEntry)) (k : String) (e : KBEntry),
      kb.lookup k = some e → e.needs_review = true →
      ∃ e', (kbPostMergeCheck kb cats).lookup k = some e' ∧ e'.needs_review = true := by
  intro cats
  induction cats with
  | nil => intro kb k e hk hrev; exact ⟨e, by simpa [kbPostMergeCheck] using hk, hrev⟩
  | cons c rest ih =>
    intro kb k e hk hrev
    rw [kbPostMergeCheck]
    by_cases hcond : (stripStr (rowBreadcrumb c) == stripStr c.category_key) = true
    · rw [if_pos hcond]
      cases hm : kb.lookup c.category_key with
      | none => exact ih kb k e hk hrev
      | some e2 =>
        by_cases hkc : k = c.category_key
        · refine ih _ k { e2 with needs_review := true } ?_ rfl
          rw [hkc]
          exact kbSet_lookup_self _ _ _
        · refine ih _ k e ?_ hrev
          rw [kbSet_lookup_ne _ _ _ k hkc]
          exact hk
    · rw [if_neg hcond]
      exact ih kb k e hk hrev

theorem postCheck_sets_flag :
    ∀ (cats : List CatRow) (kb : List (String × KBEntry)) (c : CatRow),
      c ∈ cats →
      (stripStr (rowBreadcrumb c) == stripStr c.category_key) = true →
      ((kb.lookup c.category_key).isSome = true) →
      (∀ k, (kb.lookup k).isSome = true →
        ∃ e, kb.lookup k = some e) →
      ∃ e', (kbPostMergeCheck kb cats).lookup c.category_key = some e' ∧
        e'.needs_review = true := by
  intro cats
  induction cats with
  | nil => intro kb c hc; simp at hc
  | cons d rest ih =>
    intro kb c hc hcond hsome _
    rcases List.mem_cons.mp hc with rfl | hc'
    · rw [kbPostMergeCheck, if_pos hcond]
      cases hm : kb.lookup c.category_key with
      | none => rw [hm] at hsome; cases hsome
      | some e2 =>
        refine postCheck_flag_mono rest _ c.category_key { e2 with needs_review := true }
          ?_ rfl
        exact kbSet_lookup_self _ _ _
    · rw [kbPostMergeCheck]
      by_cases hdcond : (stripStr (rowBreadcrumb d) == stripStr d.category_key) = true
      · rw [if_pos hdcond]
        cases hm : kb.lookup d.category_key with
        | none => exact ih kb c hc' hcond hsome (fun k hk => Option.isSome_iff_exists.mp hk)
        | some e2 =>
          refine ih _ c hc' hcond ?_ (fun k hk => Option.isSome_iff_exists.mp hk)
          by_cases hkc : c.category_key = d.category_key
          · rw [hkc, kbSet_lookup_self]; rfl
          · rw [kbSet_lookup_ne _ _ _ _ hkc]
            exact hsome
      · rw [if_neg hdcond]
        exact ih kb c hc' hcond hsome (fun k hk => Option.isSome_iff_exists.mp hk)

/-- C1: the automated merge (kb_merge_categories followed by the post-merge
breadcrumb check of analyze_dataset) never flips an existing entry's
needs_review flag from true to false; and for any input category whose
derived breadcrumb, stripped, equals its raw category key, the entry ends
with needs_review = true, whatever its previous value. -/
theorem needs_review_never_cleared :
    ∀ (kb : List (String × KBEntry)) (cats : List CatRow) (loc : String),
      (∀ k e, kb.lookup k = some e → e.needs_review = true →
        ∃ e', (kbMergePhase kb cats loc).lookup k = some e' ∧
          e'.needs_review = true) ∧
      (∀ c ∈ cats, stripStr (rowBreadcrumb c) = c.category_key →
        ∃ e', (kbMergePhase kb cats loc).lookup c.category_key = some e' ∧
          e'.needs_review = true) := by
  intro kb cats loc
  constructor
  · intro k e hk hrev
    obtain ⟨e1, he1, hrev1⟩ := kb_merge_flag_mono cats kb loc k e hk hrev
    exact postCheck_flag_mono cats _ k e1 he1 hrev1
  · intro c hc hstrip
    have hcond : (stripStr (rowBreadcrumb c) == stripStr c.category_key) = true := by
      have hkey : stripStr c.category_key = c.category_key := by
        rw [← hstrip, stripStr_idem]
      rw [hstrip, hkey]
      exact beq_self_eq_true _
    have hsome := kb_merge_adds_key cats kb loc c hc
    exact postCheck_sets_flag cats _ c hc hcond hsome
      (fun k hk => Option.isSome_iff_exists.mp hk)

/-- C1 (witness): a store with one flagged and one clean entry, merged with
categories whose second breadcrumb degenerates to the bare key. -/
theorem needs_review_never_cleared_witness :
    (∃ e', (kbMergePhase kbC1 catsC1 "es-MX").lookup "CAT1" = some e' ∧
      e'.needs_review = true) ∧
    (∃ e', (kbMergePhase kbC1 catsC1 "es-MX").lookup "CAT2" = some e' ∧
      e'.needs_review = true) := by
  have h := needs_review_never_cleared kbC1 catsC1 "es-MX"
  constructor
  · exact h.1 "CAT1"
      ⟨"CAT1", "Hogar > Cocina", 5, "es-MX", true, "auto_detected_from_dataset", []⟩
      (by decide) (by decide)
  · exact h.2 ⟨"CAT2", none, 9⟩ (by decide) (by decide)

theorem compute_group_stats_bounds
    (logQ : ℚ → ℚ) (gtype gkey : String) (idxs : List Nat)
    (products : List AutoProduct) (minp : Nat) (gs : GroupStats)
    (h : compute_group_stats logQ gtype gkey idxs products minp = some gs) :
    minp ≤ gs.product_count := by
  unfold compute_group_stats at h
  simp only [] at h
  split at h
  · cases h
  · split at h
    · cases h
    · cases h
      show minp ≤ idxs.length
      omega

theorem selectLoop_mem :
    ∀ (thr : ℚ) (maxg : Nat) (l acc : List GroupStats) (g : GroupStats),
      g ∈ selectLoop thr maxg l acc → g ∈ acc ∨ (g ∈ l ∧ thr ≤ g.score) := by
  intro thr maxg l
  induction l with
  | nil =>
    intro acc g hg
    rw [selectLoop] at hg
    exact Or.inl (List.mem_reverse.mp hg)
  | cons s rest ih =>
    intro acc g hg
    rw [selectLoop] at hg
    by_cases hs : s.score < thr
    · rw [if_pos hs] at hg
      rcases ih acc g hg with h1 | ⟨h1, h2⟩
      · exact Or.inl h1
      · exact Or.inr ⟨List.mem_cons_of_mem _ h1, h2⟩
    · rw [if_neg hs] at hg
      by_cases hmax : maxg ≤ acc.length + 1
      · rw [if_pos hmax] at hg
        rcases List.mem_cons.mp (List.mem_reverse.mp hg) with rfl | h1
        · exact Or.inr ⟨List.mem_cons_self _ _, le_of_not_lt hs⟩
        · exact Or.inl h1
      · rw [if_neg hmax] at hg
        rcases ih (s :: acc) g hg with h1 | ⟨h1, h2⟩
        · rcases List.mem_cons.mp h1 with rfl | h1'
          · exact Or.inr ⟨List.mem_cons_self _ _, le_of_not_lt hs⟩
          · exact Or.inl h1'
        · exact Or.inr ⟨List.mem_cons_of_mem _ h1, h2⟩

theorem selectLoop_length :
    ∀ (thr : ℚ) (maxg : Nat) (l acc : List GroupStats),
      (acc.length < maxg ∨ acc.length = 0) →
      (selectLoop thr maxg l acc).length ≤ max 1 maxg := by
  intro thr maxg l
  have hmx1 := Nat.le_max_left 1 maxg
  have hmx2 := Nat.le_max_right 1 maxg
  induction l with
  | nil =>
    intro acc hinv
    rw [selectLoop, List.length_reverse]
    omega
  | cons s rest ih =>
    intro acc hinv
    rw [selectLoop]
    by_cases hs : s.score < thr
    · rw [if_pos hs]
      exact ih acc hinv
    · rw [if_neg hs]
      by_cases hmax : maxg ≤ acc.length + 1
      · rw [if_pos hmax]
        rw [List.length_reverse, List.length_cons]
        omega
      · rw [if_neg hmax]
        refine ih (s :: acc) ?_
        rw [List.length_cons]
        omega

/-- C4 (amended): every group selected by select_best_groups has product
count at least min_products and score at least the score threshold, and the
number of selected groups is at most max(1, max_groups): the cap holds
whenever max_groups is at least 1, while with max_groups = 0 one qualifying
group is still returned because the length test runs after the append. -/
theorem auto_group_selector_guarantees :
    ∀ (logQ : ℚ → ℚ) (products : List AutoProduct) (cfg : AutoCfg),
      (∀ g ∈ select_best_groups logQ products cfg,
        cfg.min_products ≤ g.product_count ∧ cfg.score_threshold ≤ g.score) ∧
      (select_best_groups logQ products cfg).length ≤ max 1 cfg.max_groups := by
  intro logQ products cfg
  constructor
  · intro g hg
    unfold select_best_groups at hg
    rcases selectLoop_mem _ _ _ _ g hg with hacc | ⟨hmem, hthr⟩
    · simp at hacc
    · rcases List.mem_filterMap.mp (mem_stableSortBy.mp hmem) with ⟨cand, _, hcomp⟩
      exact ⟨compute_group_stats_bounds _ _ _ _ _ _ _ hcomp, hthr⟩
  · unfold select_best_groups
    exact selectLoop_length _ _ _ [] (Or.inr rfl)

theorem compute_group_stats_prodC4 :
    compute_group_stats (fun _ => 0) "by_parent_id" "P1" [0] [prodC4] 1 = some gsC4 := by
  have hps : List.filterMap (fun i => ([prodC4])[i]?) [0] = [prodC4] := by decide
  have hterm : List.foldl
      (fun m p => List.foldl countsAddBy m (tokenize (extract_product_text_signals p)))
      ([] : List (String × Nat)) [prodC4] = [("martillo", 1)] := by decide
  have hsub : List.foldl
      (fun m p =>
        match productSubtype p with
        | some sub => if sub == "" then m else countsAddBy m sub
        | none => m)
      ([] : List (String × Nat)) [prodC4] = [] := by decide
  have hmc : mostCommon [("martillo", 1)] 35 = [("martillo", 1)] := by decide
  simp only [compute_group_stats, hps, hterm, hsub, hmc]
  norm_num [gsC4]
  refine ⟨⟨by decide, by decide, ?_, ?_⟩, ?_⟩
  · intro a b hab; simp [prodC4] at hab
  · intro a b hab; simp [prodC4] at hab
  · rw [abs_of_nonneg (by norm_num), min_eq_left (by norm_num)]; norm_num

theorem select_prodC4_eval (maxg : Nat) :
    select_best_groups (fun _ => 0) [prodC4] ⟨1, maxg, 0⟩ = [gsC4] := by
  have hcands : build_candidates [prodC4] = [(("by_parent_id", "P1"), [0])] := by decide
  have hscore : ¬(gsC4.score < (0 : ℚ)) := by norm_num [gsC4]
  unfold select_best_groups
  rw [hcands]
  simp only [List.filterMap_cons, List.filterMap_nil, compute_group_stats_prodC4]
  by_cases hm : maxg ≤ 1 <;>
    simp [stableSortBy, insertSorted, selectLoop, hscore, hm]

/-- C4 (counterexample): with min_products = 1 and max_groups = 0 the
selector still returns one group for a qualifying one-product candidate, so
the configured maximum is not an upper bound for every configuration. -/
theorem auto_group_cap_counterexample :
    (select_best_groups (fun _ => 0) [prodC4] ⟨1, 0, 0⟩).length = 1 ∧
    (⟨1, 0, 0⟩ : AutoCfg).max_groups = 0 := by
  rw [select_prodC4_eval 0]
  exact ⟨rfl, rfl⟩

/-- C4 (witness): the guarantees evaluated on the concrete one-product
candidate with max_groups = 5. -/
theorem auto_group_selector_guarantees_witness :
    (1 ≤ gsC4.product_count ∧ (0 : ℚ) ≤ gsC4.score) ∧
    (select_best_groups (fun _ => 0) [prodC4] ⟨1, 5, 0⟩).length ≤ max 1 5 := by
  have h := auto_group_selector_guarantees (fun _ => 0) [prodC4] ⟨1, 5, 0⟩
  refine ⟨h.1 gsC4 ?_, h.2⟩
  rw [select_prodC4_eval 5]
  exact List.mem_singleton.mpr rfl
